import Mathlib

/-!
Verification of the entity-resolution matching engine of
news-contributions-check (`src/news_contribution_check/cf_matcher.py`).

The Python source is shallowly embedded: pure string processing is modelled
on `List Char` (ASCII model of Python's `str.lower`, `re` word/space classes
and `json` parsing; the source's data is ASCII), the external services
(rapidfuzz `process.extract` and the Anthropic message call) are parameters
of the functions that consume their results, and fallible operations return
`Option`/`Except`.
-/

namespace CFMatch

/-- ASCII model of the regex class `\w` (`[A-Za-z0-9_]`). -/
def isWordChar (c : Char) : Bool :=
  (('a' ≤ c && c ≤ 'z') || ('A' ≤ c && c ≤ 'Z') || ('0' ≤ c && c ≤ '9') || c = '_')

/-- Model of the regex class `\s` (Python whitespace). -/
def isSpaceChar (c : Char) : Bool :=
  (c = ' ' || c = '\t' || c = '\n' || c = '\r' || c = '\x0b' || c = '\x0c')

/-- ASCII model of `str.lower` on a single character (65-90 are the
code points of `A`-`Z`). -/
def lowerChar (c : Char) : Char :=
  if 65 ≤ c.toNat && c.toNat ≤ 90 then Char.ofNat (c.toNat + 32) else c

/-- ASCII model of `str.upper` on a single character (97-122 are the
code points of `a`-`z`). -/
def upperChar (c : Char) : Char :=
  if 97 ≤ c.toNat && c.toNat ≤ 122 then Char.ofNat (c.toNat - 32) else c

/-- `s.lower()` (line 140). -/
def pyLower (l : List Char) : List Char := l.map lowerChar

/-- `s.upper()` (line 278). -/
def pyUpperL (l : List Char) : List Char := l.map upperChar

def pyUpper (s : String) : String := String.mk (pyUpperL s.data)

/-!
## The corporate-suffix regex

`re.sub(r"\b(incorporated|inc|llc|l\.l\.c\.|ltd|co|corp|corporation|plc)\b", "", s)`
(line 142).  The scanner below reproduces `re.sub` semantics for this
pattern: scan left to right; at a position whose preceding character is
non-word (or at the start), try the alternatives in their written order;
an alternative matches when its literal characters are present and the
trailing `\b` holds; a match is deleted and scanning resumes after it.
All alternatives except `l.l.c.` end in a word character, so their
trailing `\b` requires the next character to be non-word (or the end);
`l.l.c.` ends in `.`, so its trailing `\b` requires the next character
to be a word character.
-/

/-- Trailing `\b` after an alternative ending in a word character. -/
def bAfterWord : List Char → Bool
  | [] => true
  | d :: _ => !isWordChar d

/-- Trailing `\b` after `l.l.c.` (last pattern char is non-word `.`). -/
def bAfterDot : List Char → Bool
  | [] => false
  | d :: _ => isWordChar d

/-- The alternatives of the suffix pattern, in the order the regex tries
them; the flag is `true` for the `l\.l\.c\.` alternative. -/
def suffixAlts : List (List Char × Bool) :=
  [("incorporated".data, false), ("inc".data, false), ("llc".data, false),
   ("l.l.c.".data, true), ("ltd".data, false), ("co".data, false),
   ("corp".data, false), ("corporation".data, false), ("plc".data, false)]

/-- Try one alternative at the current position. -/
def tryAlt (t : List Char) (dotEnd : Bool) (l : List Char) :
    Option (List Char × List Char) :=
  if t.isPrefixOf l && (if dotEnd then bAfterDot (l.drop t.length)
                        else bAfterWord (l.drop t.length)) then
    some (t, l.drop t.length)
  else none

/-- Try the alternatives in order; returns the matched literal and the
remainder of the input after it. -/
def tryAlts (l : List Char) : Option (List Char × List Char) :=
  suffixAlts.foldr (fun td acc => (tryAlt td.1 td.2 l).orElse (fun _ => acc)) none

/-- `\b` holds before a word character iff the previous character is
non-word (`none` = start of string). -/
def prevNonWord : Option Char → Bool
  | none => true
  | some c => !isWordChar c

/-- The `re.sub` scan, fuel-structured so that it evaluates in the kernel.
`prev` is the character of the original string just before the current
position. -/
def subAux : Nat → Option Char → List Char → List Char
  | 0, _, l => l
  | _ + 1, _, [] => []
  | n + 1, prev, c :: cs =>
    if prevNonWord prev then
      match tryAlts (c :: cs) with
      | some (t, rest) => subAux n (some (t.getLastD ' ')) rest
      | none => c :: subAux n (some c) cs
    else c :: subAux n (some c) cs

/-- Removal of corporate suffix tokens (line 142). -/
def subSuffix (l : List Char) : List Char := subAux l.length none l

/-- `re.sub(r"[^\w\s]", " ", s)` (line 144): every character that is
neither a word character nor whitespace becomes a single space. -/
def punctToSpace (l : List Char) : List Char :=
  l.map fun c => if !isWordChar c && !isSpaceChar c then ' ' else c

/-- `re.sub(r"\s+", " ", s)` (line 146): each maximal whitespace run
becomes one space.  The flag records whether the previous character was
whitespace (in which case this space belongs to an already-emitted run). -/
def collapseAux : Bool → List Char → List Char
  | _, [] => []
  | prevSp, c :: cs =>
    if isSpaceChar c then
      if prevSp then collapseAux true cs else ' ' :: collapseAux true cs
    else c :: collapseAux false cs

def collapseWs (l : List Char) : List Char := collapseAux false l

/-- Remove trailing whitespace. -/
def dropTrailing : List Char → List Char
  | [] => []
  | c :: cs =>
    match dropTrailing cs with
    | [] => if isSpaceChar c then [] else [c]
    | r => c :: r

/-- `.strip()` (line 146). -/
def pyStripL (l : List Char) : List Char := dropTrailing (l.dropWhile isSpaceChar)

def pyStrip (s : String) : String := String.mk (pyStripL s.data)

/-- `CFMatcher._normalize` (lines 139-147).  The argument is optional
because the source evaluates `(s or "")`, accepting `None`. -/
def normalize (s : Option String) : String :=
  String.mk (pyStripL (collapseWs (punctToSpace (subSuffix (pyLower (s.getD "").data)))))

/-!
## Data model (`CFMatchCandidate`, the CF record rows, the compare config)
-/

/-- `CFMatchCandidate` (lines 17-23).  Scores are the `int(score)` values
produced by rapidfuzz, in `[0, 100]`. -/
structure CFMatchCandidate where
  index : Nat
  contributor_name : String
  contributor_employer : String
  name_score : Nat
  employer_score : Nat
deriving Repr, DecidableEq

instance : Inhabited CFMatchCandidate := ⟨⟨0, "", "", 0, 0⟩⟩

/-- One row of the CF CSV after `_load_cf_records` (lines 131-137). -/
structure CFRecord where
  contributor_name : String
  contributor_employer : String
deriving Repr, DecidableEq

instance : Inhabited CFRecord := ⟨⟨"", ""⟩⟩

/-- Modelled from the spec: the `compare` section of the application
configuration (`top_k`, `low_threshold`, `high_threshold`, the adjudication
model identifier and the max output tokens of the adjudication call).
`cf_matcher.py` reads `config.compare.top_k`, `.low_threshold`,
`.high_threshold` and `.cf_model`, but no definition of this section exists
under `src/` (`AppConfig` in `config.py` only has `api` and `processing`),
so its fields are taken from the spec's configuration list. -/
structure CompareConfig where
  top_k : Nat
  low_threshold : Nat
  high_threshold : Nat
  cf_model : String
  cf_max_tokens : Nat
deriving Repr, DecidableEq

/-!
## Similarity shortlister (`_shortlist_candidates`, lines 149-192)

`process.extract` is external (rapidfuzz); its two top-k result lists are
parameters, each entry being `(score, index)` — the matched string that
rapidfuzz also returns is unused by the source loops.  The mutable dict
`by_index` is an insertion-ordered list of candidates keyed by their
`index` field, exactly as a Python dict iterates.
-/

/-- Loop body of `for cand, score, idx in top_names` (lines 165-176). -/
def addNameHit (cf_names cf_employers : List String)
    (acc : List CFMatchCandidate) (p : Nat × Nat) : List CFMatchCandidate :=
  if acc.any (fun c => c.index = p.2) then
    acc.map fun c =>
      if c.index = p.2 then { c with name_score := max c.name_score p.1 } else c
  else
    acc ++ [⟨p.2, cf_names.getD p.2 "", cf_employers.getD p.2 "", p.1, 0⟩]

/-- Loop body of `for cand, score, idx in top_emps` (lines 177-188). -/
def addEmpHit (cf_names cf_employers : List String)
    (acc : List CFMatchCandidate) (p : Nat × Nat) : List CFMatchCandidate :=
  if acc.any (fun c => c.index = p.2) then
    acc.map fun c =>
      if c.index = p.2 then { c with employer_score := max c.employer_score p.1 } else c
  else
    acc ++ [⟨p.2, cf_names.getD p.2 "", cf_employers.getD p.2 "", 0, p.1⟩]

/-- Sort key `max(e.name_score, e.employer_score)` (line 191). -/
def candKey (c : CFMatchCandidate) : Nat := max c.name_score c.employer_score

/-- Stable descending insertion, modelling `sorted(..., reverse=True)`:
an element goes in front of the first element with a strictly smaller key,
and behind equal keys, which preserves the stable order of Python's sort. -/
def insertDesc (x : CFMatchCandidate) : List CFMatchCandidate → List CFMatchCandidate
  | [] => [x]
  | y :: ys => if candKey x ≥ candKey y then x :: y :: ys else y :: insertDesc x ys

def sortDesc : List CFMatchCandidate → List CFMatchCandidate
  | [] => []
  | x :: xs => insertDesc x (sortDesc xs)

/-- `_shortlist_candidates` after the two `process.extract` calls:
merge the two top-k lists by record index and sort by best field score
(lines 164-192). -/
def shortlistMerge (cf_names cf_employers : List String)
    (topNames topEmps : List (Nat × Nat)) : List CFMatchCandidate :=
  sortDesc (topEmps.foldl (addEmpHit cf_names cf_employers)
    (topNames.foldl (addNameHit cf_names cf_employers) []))

/-!
## JSON (`json.loads` on the sliced response, lines 270-280)

A recursive-descent parser for a JSON subset: objects, arrays, strings
(with the single-character escapes; `\uXXXX` is not modelled), integers
(JSON floats are not modelled — the schema's `index` is an integer),
`true`/`false`/`null`.  `json.loads` requires the whole input to be one
value, up to whitespace.
-/

inductive Json where
  | jstr (s : String)
  | jnum (n : Int)
  | jbool (b : Bool)
  | jnull
  | jarr (xs : List Json)
  | jobj (kvs : List (String × Json))
deriving Repr, BEq

def isJsonWs (c : Char) : Bool := c = ' ' || c = '\x09' || c = '\x0a' || c = '\x0d'

def skipWs (l : List Char) : List Char := l.dropWhile isJsonWs

/-- The JSON single-character escapes. -/
def escChar (e : Char) : Option Char :=
  if e = 'n' then some '\x0a'
  else if e = 't' then some '\x09'
  else if e = 'r' then some '\x0d'
  else if e = 'b' then some '\x08'
  else if e = 'f' then some '\x0c'
  else if e = '"' ∨ e = '\\' ∨ e = '/' then some e
  else none

/-- Read a JSON string body after the opening quote. -/
def readJStr : List Char → Option (List Char × List Char)
  | [] => none
  | ch :: tl =>
    if ch = '"' then some ([], tl)
    else if ch = '\\' then
      match tl with
      | [] => none
      | e :: tl2 =>
        match escChar e, readJStr tl2 with
        | some c2, some pr => some (c2 :: pr.1, pr.2)
        | _, _ => none
    else
      match readJStr tl with
      | some pr => some (ch :: pr.1, pr.2)
      | none => none

def isDigit (c : Char) : Bool := '0' ≤ c && c ≤ '9'

def digitVal (c : Char) : Nat := c.toNat - '0'.toNat

/-- Read a run of digits as a natural number. -/
def readDigits (acc : Nat) : List Char → Nat × List Char
  | [] => (acc, [])
  | c :: tl => if isDigit c then readDigits (acc * 10 + digitVal c) tl else (acc, c :: tl)

/-- The tail after a literal keyword such as `rue` of `true`. -/
def keywordTail (w l : List Char) : Option (List Char) :=
  if w.isPrefixOf l then some (l.drop w.length) else none

/-- The tail after a structural character, whitespace allowed before it. -/
def afterCh (c : Char) (l : List Char) : Option (List Char) :=
  match skipWs l with
  | d :: tl => if d = c then some tl else none
  | [] => none

mutual

/-- Parse one JSON value; the fuel bounds the recursion and
`input.length + 1` is always enough. -/
def parseVal : Nat → List Char → Option (Json × List Char)
  | 0, _ => none
  | _ + 1, [] => none
  | fuel + 1, c :: tl =>
    if c = '"' then
      match readJStr tl with
      | some pr => some (Json.jstr (String.mk pr.1), pr.2)
      | none => none
    else if isDigit c then
      let dr := readDigits (digitVal c) tl
      some (Json.jnum (dr.1 : Int), dr.2)
    else if c = '-' then
      match tl with
      | d :: _ =>
        if isDigit d then
          let dr := readDigits 0 tl
          some (Json.jnum (-(dr.1 : Int)), dr.2)
        else none
      | [] => none
    else if c = 't' then
      (keywordTail "rue".data tl).map fun r => (Json.jbool true, r)
    else if c = 'f' then
      (keywordTail "alse".data tl).map fun r => (Json.jbool false, r)
    else if c = 'n' then
      (keywordTail "ull".data tl).map fun r => (Json.jnull, r)
    else if c = '\x7b' then
      match skipWs tl with
      | '\x7d' :: r => some (Json.jobj [], r)
      | r => (parseMembers fuel r).map fun mr => (Json.jobj mr.1, mr.2)
    else if c = '[' then
      match skipWs tl with
      | ']' :: r => some (Json.jarr [], r)
      | r => (parseItems fuel r).map fun ir => (Json.jarr ir.1, ir.2)
    else none

/-- Parse one or more `"key": value` members and the closing brace. -/
def parseMembers : Nat → List Char → Option (List (String × Json) × List Char)
  | 0, _ => none
  | fuel + 1, l =>
    match afterCh '"' l with
    | none => none
    | some r =>
      match readJStr r with
      | none => none
      | some kr =>
        match afterCh ':' kr.2 with
        | none => none
        | some r2 =>
          match parseVal fuel (skipWs r2) with
          | none => none
          | some vr =>
            match skipWs vr.2 with
            | ',' :: r3 =>
              (parseMembers fuel r3).map fun mr =>
                ((String.mk kr.1, vr.1) :: mr.1, mr.2)
            | '\x7d' :: r3 => some ([(String.mk kr.1, vr.1)], r3)
            | _ => none

/-- Parse one or more comma-separated values and the closing bracket. -/
def parseItems : Nat → List Char → Option (List Json × List Char)
  | 0, _ => none
  | fuel + 1, l =>
    match parseVal fuel (skipWs l) with
    | none => none
    | some vr =>
      match skipWs vr.2 with
      | ',' :: r => (parseItems fuel r).map fun ir => (vr.1 :: ir.1, ir.2)
      | ']' :: r => some ([vr.1], r)
      | _ => none

end

/-- `json.loads` on a character list: one value, whole input consumed. -/
def pyJsonLoadsL (l : List Char) : Option Json :=
  match parseVal (l.length + 1) (skipWs l) with
  | some vr => if (skipWs vr.2).isEmpty then some vr.1 else none
  | none => none

/-!
## Response slicing (lines 272-277)

`json_start = text.find("{")`, `json_end = text.rfind("}") + 1`; when
`json_start < 0` or `json_end <= json_start` the source raises (caught
below); otherwise `text[json_start:json_end]` is parsed.
-/

/-- Index of the last occurrence of `c`, Python `str.rfind`. -/
def rfindIdx (l : List Char) (c : Char) : Option Nat :=
  match List.findIdx? (fun d => d = c) l.reverse with
  | none => none
  | some k => some (l.length - 1 - k)

/-- The `text[json_start:json_end]` slice, `none` when the source's
`ValueError("No JSON object found")` is raised. -/
def extractSlice (l : List Char) : Option (List Char) :=
  match List.findIdx? (fun d => d = '\x7b') l, rfindIdx l '\x7d' with
  | some js, some rj => if rj + 1 ≤ js then none else some ((l.drop js).take (rj + 1 - js))
  | some _, none => none
  | none, _ => none

/-- Slice then `json.loads`; `none` covers every exception of the
`try` block's slicing and parsing (lines 272-277). -/
def extractLoad (l : List Char) : Option Json :=
  (extractSlice l).bind pyJsonLoadsL

/-!
## Field extraction from the parsed dict (lines 278-282)
-/

/-- `dict.get(key, default)` for the dict built by `json.loads`:
duplicate keys are overwritten in order, so the last binding wins. -/
def jget (kvs : List (String × Json)) (k : String) (dflt : Json) : Json :=
  match kvs.reverse.find? (fun p => p.1 = k) with
  | some p => p.2
  | none => dflt

mutual

/-- Python `str()` of a parsed JSON value (`repr`-style rendering for
containers; no decision string ever takes those shapes). -/
def pyStrVal : Json → String
  | .jstr s => s
  | .jnum n => toString n
  | .jbool true => "True"
  | .jbool false => "False"
  | .jnull => "None"
  | .jarr xs => "[" ++ pyStrList xs ++ "]"
  | .jobj kvs => "\x7b" ++ pyStrMembers kvs ++ "\x7d"

def pyStrList : List Json → String
  | [] => ""
  | [x] => pyStrVal x
  | x :: xs => pyStrVal x ++ ", " ++ pyStrList xs

def pyStrMembers : List (String × Json) → String
  | [] => ""
  | [p] => "'" ++ p.1 ++ "': " ++ pyStrVal p.2
  | p :: ps => "'" ++ p.1 ++ "': " ++ pyStrVal p.2 ++ ", " ++ pyStrMembers ps

end

/-- Python `int(str)`: optional surrounding whitespace, optional sign,
then a nonempty digit run (digit-group underscores are not modelled). -/
def pyIntOfString (s : String) : Option Int :=
  match (pyStripL s.data : List Char) with
  | [] => none
  | '-' :: ds =>
    if ds ≠ [] ∧ ds.all isDigit then some (-((readDigits 0 ds).1 : Int)) else none
  | '+' :: ds =>
    if ds ≠ [] ∧ ds.all isDigit then some ((readDigits 0 ds).1 : Int) else none
  | ds =>
    if ds.all isDigit then some ((readDigits 0 ds).1 : Int) else none

/-- Python `int()` applied to a parsed JSON value: ints are returned,
booleans coerce to 0/1, strings are parsed, anything else raises. -/
def pyIntOfJson : Json → Option Int
  | .jnum n => some n
  | .jbool b => some (if b then 1 else 0)
  | .jstr s => pyIntOfString s
  | _ => none

/-- The three fields read inside the `try` block (lines 278-280), with the
`except` fallback (line 282).  Any failure — no slice, unparseable slice,
a non-dict value (`.get` raises), or `int()` raising — resets all three. -/
structure ParsedResp where
  decision : String
  idx : Int
  reason : String
deriving Repr, DecidableEq

def unparseableResp : ParsedResp := ⟨"REVIEW", 0, "Unparseable LLM response"⟩

def parseRespFields (text : String) : ParsedResp :=
  match extractLoad text.data with
  | some (.jobj kvs) =>
    match pyIntOfJson (jget kvs "index" (Json.jnum 0)) with
    | some i =>
      ⟨pyUpper (pyStrVal (jget kvs "decision" (Json.jstr "REVIEW"))), i,
       pyStrVal (jget kvs "reason" (Json.jstr ""))⟩
    | none => unparseableResp
  | _ => unparseableResp

/-!
## `_format_accept` (lines 194-202) and `_llm_adjudicate` (lines 204-290)

The network call is a parameter: `Except String String` is the outcome of
`self._client.messages.create(...)` followed by the `message.content`
read — an `.error` carries `str(e)` for the raised exception, an `.ok`
carries the response text (the source substitutes `"{}"` for an empty
content list before this point).
-/

def _format_accept (cand : CFMatchCandidate) (cf_records : List CFRecord) : String :=
  let rcd := cf_records.getD cand.index default
  let field := if cand.name_score ≥ cand.employer_score then "Name" else "Employer"
  let score := max cand.name_score cand.employer_score
  "ACCEPT (" ++ field ++ " score=" ++ toString score ++ ") -> Contributor Name='"
    ++ rcd.contributor_name ++ "', Contributor Employer='"
    ++ rcd.contributor_employer ++ "'"

def _llm_adjudicate (serviceResult : Except String String)
    (candidates : List CFMatchCandidate) (cf_records : List CFRecord) :
    String × List String :=
  match serviceResult with
  | .error e => ("REVIEW (LLM error)", [e])
  | .ok text =>
    let p := parseRespFields text
    if p.decision = "MATCH" ∧ 1 ≤ p.idx ∧ p.idx ≤ (candidates.length : Int) then
      (_format_accept (candidates.getD (p.idx.toNat - 1) default) cf_records,
       [p.reason])
    else if p.decision = "NO_MATCH" then ("NO_MATCH (LLM)", [p.reason])
    else ("REVIEW (LLM)", [p.reason])

/-- Lines 258-262: the request of the adjudication call.  The model comes
from the configuration; `max_tokens` and `temperature` are the literals of
the source. -/
structure AdjRequest where
  model : String
  max_tokens : Nat
  temperature : Nat
deriving Repr, DecidableEq

def buildAdjRequest (config : CompareConfig) : AdjRequest :=
  ⟨config.cf_model, 300, 0⟩

/-!
## The per-mention loop of `compare` (lines 70-108)

The adjudicator is a parameter `adj original normalized candidates`
(`_llm_adjudicate` with the service outcome already fixed), and the
shortlister is a parameter `sl top_k normalized` (`_shortlist_candidates`
with the reference corpora fixed).  Each mention yields the pair of
(was the adjudicator invoked?, the text written to the report for it).
-/

/-- Python `max(cand, key=...)`: the first element attaining the maximal
key (line 80); `none` for the empty list. -/
def bestCand : List CFMatchCandidate → Option CFMatchCandidate
  | [] => none
  | c :: cs => some (cs.foldl (fun b x => if candKey x > candKey b then x else b) c)

/-- The best score of a shortlist, `max` over all candidates of
`max(name_score, employer_score)`. -/
def bestScore (cand : List CFMatchCandidate) : Nat :=
  cand.foldl (fun m c => max m (candKey c)) 0

/-- Concatenation of a list of strings in order. -/
def concatAll : List String → String
  | [] => ""
  | s :: ss => s ++ concatAll ss

/-- One report entry (lines 103-108): the mention, the decision, each
detail on an indented line of its own, then a blank separator line. -/
def mentionEntry (original decision : String) (details : List String) : String :=
  "Mention: " ++ original ++ "\n" ++ "Decision: " ++ decision ++ "\n"
    ++ concatAll (details.map fun d => " - " ++ d ++ "\n") ++ "\n"

/-- Python `str.startswith`. -/
def pyStartsWith (s pre : String) : Bool := pre.data.isPrefixOf s.data

/-- The loop body for one mention, given its shortlist (lines 79-108).
`lo`/`hi` are `config.compare.low_threshold` / `.high_threshold`; the
source reads `hi` (line 87) but never uses it. -/
def gateBody (adjResult : String × List String) (lo hi : Nat)
    (original : String) (cand : List CFMatchCandidate) : Bool × String :=
  match bestCand cand with
  | none => (false, "")
  | some best =>
    let _hi := hi
    let best_score := candKey best
    if best_score ≤ lo then (false, "")
    else
      let decision := adjResult.1
      let details := adjResult.2
      if pyStartsWith decision "NO_MATCH" then (true, "")
      else if pyStartsWith decision "ACCEPT" || pyStartsWith decision "REVIEW" then
        (true, mentionEntry original decision details)
      else (true, "")

/-- One iteration of `for mention in mentions` (lines 70-108). -/
def processMention (adj : String → String → List CFMatchCandidate → String × List String)
    (sl : Nat → String → List CFMatchCandidate) (config : CompareConfig)
    (mention : String) : Bool × String :=
  let original := mention
  let normalized := normalize (some mention)
  let cand := sl config.top_k normalized
  gateBody (adj original normalized cand) config.low_threshold config.high_threshold
    original cand

def compareLoop (adj : String → String → List CFMatchCandidate → String × List String)
    (sl : Nat → String → List CFMatchCandidate) (config : CompareConfig) :
    List String → String
  | [] => ""
  | m :: ms => (processMention adj sl config m).2 ++ compareLoop adj sl config ms

/-- Lines 67-68: the fixed report header. -/
def reportHeader : String :=
  "Matches Report\n" ++ String.mk (List.replicate 40 '=') ++ "\n\n"

/-- The report text produced by the mention loop of `compare`. -/
def compareReport (adj : String → String → List CFMatchCandidate → String × List String)
    (sl : Nat → String → List CFMatchCandidate) (config : CompareConfig)
    (mentions : List String) : String :=
  reportHeader ++ compareLoop adj sl config mentions

/-!
## Input validation and loading (`compare` lines 44-66,
`_load_company_mentions` lines 113-123, `_load_cf_records` lines 125-137)

The file system is abstracted to the data `compare` reads from it: whether
the CF CSV exists, the company file's suffix, each CSV's header row, and
the per-row cell of each required column (`none` when the row lacks the
column, as `row.get` yields).
-/

structure CompareInput where
  cfPath : String
  cfExists : Bool
  companyPath : String
  companySuffix : String
  companyHeader : List String
  companyCol : List (Option String)
  cfHeader : List String
  cfNameCol : List (Option String)
  cfEmpCol : List (Option String)

/-- `_load_company_mentions`: header check, then
`(row.get(col) or "").strip()` keeping nonempty values. -/
def loadCompanyMentions (inp : CompareInput) : Except String (List String) :=
  if "Company/Organization Name" ∈ inp.companyHeader then
    .ok (inp.companyCol.filterMap fun v =>
      let name := pyStrip (v.getD "")
      if name ≠ "" then some name else none)
  else .error "Company CSV missing 'Company/Organization Name' column"

/-- `_load_cf_records`: both column checks in order, then the stripped
rows. -/
def loadCfRecords (inp : CompareInput) : Except String (List CFRecord) :=
  if "Contributor Name" ∈ inp.cfHeader then
    if "Contributor Employer" ∈ inp.cfHeader then
      .ok (List.zipWith (fun n e => ⟨pyStrip (n.getD ""), pyStrip (e.getD "")⟩)
        inp.cfNameCol inp.cfEmpCol)
    else .error "CF CSV missing required column: Contributor Employer"
  else .error "CF CSV missing required column: Contributor Name"

/-- `compare` (lines 44-111): validations in source order, then the
report text.  An `.error` is raised before the report file is created, so
an error outcome carries no report. -/
def compareRun (adj : String → String → List CFMatchCandidate → String × List String)
    (sl : Nat → String → List CFMatchCandidate) (config : CompareConfig)
    (inp : CompareInput) : Except String String :=
  if ¬ inp.cfExists then .error ("CF CSV not found: " ++ inp.cfPath)
  else if String.mk (pyLower inp.companySuffix.data) ≠ ".csv" then
    .error ("Company CSV must be .csv: " ++ inp.companyPath)
  else
    match loadCompanyMentions inp with
    | .error e => .error e
    | .ok mentions =>
      match loadCfRecords inp with
      | .error e => .error e
      | .ok _ => .ok (compareReport adj sl config mentions)

/-!
## Theorems
-/

theorem candKey_pick (c d : CFMatchCandidate) :
    candKey (if candKey d > candKey c then d else c) = max (candKey c) (candKey d) := by
  by_cases h : candKey d > candKey c
  · simp [h, Nat.max_eq_right (Nat.le_of_lt h)]
  · simp [h, Nat.max_eq_left (Nat.le_of_not_lt h)]

theorem candKey_foldl_pick (c : CFMatchCandidate) (cs : List CFMatchCandidate) :
    candKey (cs.foldl (fun b x => if candKey x > candKey b then x else b) c) =
      cs.foldl (fun m x => max m (candKey x)) (candKey c) := by
  induction cs generalizing c with
  | nil => rfl
  | cons d ds ih => simp only [List.foldl_cons, ih, candKey_pick]

theorem bestScore_cons (c : CFMatchCandidate) (cs : List CFMatchCandidate) :
    bestScore (c :: cs) = cs.foldl (fun m x => max m (candKey x)) (candKey c) := by
  simp [bestScore, Nat.zero_max]

theorem candKey_bestCand (c : CFMatchCandidate) (cs : List CFMatchCandidate) :
    candKey (cs.foldl (fun b x => if candKey x > candKey b then x else b) c) =
      bestScore (c :: cs) := by
  rw [candKey_foldl_pick, bestScore_cons]

theorem gateBody_nil (a : String × List String) (lo hi : Nat) (o : String) :
    gateBody a lo hi o [] = (false, "") := rfl

theorem gateBody_low (a : String × List String) (lo hi : Nat) (o : String)
    (cand : List CFMatchCandidate) (h : bestScore cand ≤ lo) :
    gateBody a lo hi o cand = (false, "") := by
  cases cand with
  | nil => rfl
  | cons c cs =>
    simp only [gateBody, bestCand, candKey_bestCand]
    rw [if_pos h]

theorem gateBody_escalates (a : String × List String) (lo hi : Nat) (o : String)
    (cand : List CFMatchCandidate) (h : lo < bestScore cand) :
    gateBody a lo hi o cand =
      (true,
       if pyStartsWith a.1 "NO_MATCH" then ""
       else if pyStartsWith a.1 "ACCEPT" || pyStartsWith a.1 "REVIEW" then
         mentionEntry o a.1 a.2
       else "") := by
  cases cand with
  | nil => simp [bestScore] at h
  | cons c cs =>
    simp only [gateBody, bestCand, candKey_bestCand]
    rw [if_neg (Nat.not_le_of_lt h)]
    by_cases h1 : pyStartsWith a.1 "NO_MATCH" = true
    · simp [h1]
    · by_cases h2 : (pyStartsWith a.1 "ACCEPT" || pyStartsWith a.1 "REVIEW") = true
      · simp [h1, h2]
      · simp [h1, h2]

theorem processMention_eq
    (adj : String → String → List CFMatchCandidate → String × List String)
    (sl : Nat → String → List CFMatchCandidate) (config : CompareConfig)
    (m : String) :
    processMention adj sl config m =
      gateBody (adj m (normalize (some m)) (sl config.top_k (normalize (some m))))
        config.low_threshold config.high_threshold m
        (sl config.top_k (normalize (some m))) := rfl

theorem compareLoop_concat
    (adj : String → String → List CFMatchCandidate → String × List String)
    (sl : Nat → String → List CFMatchCandidate) (config : CompareConfig) :
    ∀ l, compareLoop adj sl config l =
      concatAll (l.map fun x => (processMention adj sl config x).2)
  | [] => rfl
  | m :: ms => by
    simp only [compareLoop, List.map_cons, concatAll]
    rw [compareLoop_concat adj sl config ms]

/-- Claim C1: in the per-mention loop body of `compare`, an empty
shortlist, or a best score (the maximum over candidates of
`max(name_score, employer_score)`) at most `low_threshold`, yields a
rejection — the adjudicator is not invoked (flag `false`) and nothing is
written for the mention; once the best score strictly exceeds
`low_threshold` the adjudicator is always invoked (flag `true`),
regardless of `high_threshold` — the whole body is independent of
`high_threshold`, so no score is auto-accepted without adjudication.
The last conjunct ties the body to the mention loop of `compare`. -/
theorem decision_gate_rejects_low_and_always_adjudicates
    (adjResult : String × List String) (lo hi hi' : Nat) (original : String)
    (cand : List CFMatchCandidate)
    (adj : String → String → List CFMatchCandidate → String × List String)
    (sl : Nat → String → List CFMatchCandidate) (config : CompareConfig)
    (m : String) :
    (cand = [] → gateBody adjResult lo hi original cand = (false, "")) ∧
    (bestScore cand ≤ lo → gateBody adjResult lo hi original cand = (false, "")) ∧
    (lo < bestScore cand → (gateBody adjResult lo hi original cand).1 = true) ∧
    gateBody adjResult lo hi original cand = gateBody adjResult lo hi' original cand ∧
    processMention adj sl config m =
      gateBody (adj m (normalize (some m)) (sl config.top_k (normalize (some m))))
        config.low_threshold config.high_threshold m
        (sl config.top_k (normalize (some m))) := by
  refine ⟨?_, ?_, ?_, ?_, rfl⟩
  · rintro rfl; rfl
  · intro hle
    cases cand with
    | nil => rfl
    | cons c cs =>
      simp only [gateBody, bestCand, candKey_bestCand]
      rw [if_pos hle]
  · intro hlt
    cases cand with
    | nil => simp [bestScore] at hlt
    | cons c cs =>
      simp only [gateBody, bestCand, candKey_bestCand]
      rw [if_neg (Nat.not_le_of_lt hlt)]
      by_cases h1 : pyStartsWith adjResult.1 "NO_MATCH"
      · simp [h1]
      · by_cases h2 : pyStartsWith adjResult.1 "ACCEPT" || pyStartsWith adjResult.1 "REVIEW"
        · simp [h1, h2]
        · simp [h1, h2]
  · rfl

/-- Witness for C1 at concrete inputs. -/
theorem decision_gate_rejects_low_and_always_adjudicates_witness :
    gateBody ("REVIEW (LLM)", ["d"]) 50 80 "m" [] = (false, "") ∧
    gateBody ("REVIEW (LLM)", ["d"]) 50 80 "m" [⟨0, "a", "b", 48, 32⟩] = (false, "") ∧
    (gateBody ("REVIEW (LLM)", ["d"]) 50 80 "m" [⟨0, "a", "b", 60, 10⟩]).1 = true := by
  refine ⟨?_, ?_, ?_⟩
  · exact (decision_gate_rejects_low_and_always_adjudicates ("REVIEW (LLM)", ["d"])
      50 80 80 "m" [] (fun _ _ _ => ("", [])) (fun _ _ => []) ⟨0, 0, 0, "", 0⟩ "").1 rfl
  · exact (decision_gate_rejects_low_and_always_adjudicates ("REVIEW (LLM)", ["d"])
      50 80 80 "m" [⟨0, "a", "b", 48, 32⟩] (fun _ _ _ => ("", [])) (fun _ _ => [])
      ⟨0, 0, 0, "", 0⟩ "").2.1 (by decide)
  · exact (decision_gate_rejects_low_and_always_adjudicates ("REVIEW (LLM)", ["d"])
      50 80 80 "m" [⟨0, "a", "b", 60, 10⟩] (fun _ _ _ => ("", [])) (fun _ _ => [])
      ⟨0, 0, 0, "", 0⟩ "").2.2.1 (by decide)

/-- Claim C2: when the response parses to a JSON object whose `decision`
field reads MATCH (after `str(...).upper()`), and whose `index` converts
to the integer `i`: if `1 ≤ i ≤ len(candidates)` the adjudicator returns
the ACCEPT decision built from the `i`-th candidate of the presented
list — winning field `Name` when `name_score ≥ employer_score` (ties favor
Name) and `Employer` otherwise, winning score `max(name_score,
employer_score)`, the referenced CF record's two fields, and the
response's `reason` as the sole detail; if `i` is out of range (which
includes a missing `index`, since the default `0` converts to `i = 0`)
it returns the REVIEW decision with the reason, never a silent drop. -/
theorem adjudicator_match_mapping (text : String) (kvs : List (String × Json))
    (i : Int) (r : String) (cands : List CFMatchCandidate) (recs : List CFRecord)
    (hload : extractLoad text.data = some (.jobj kvs))
    (hdec : pyUpper (pyStrVal (jget kvs "decision" (Json.jstr "REVIEW"))) = "MATCH")
    (hidx : pyIntOfJson (jget kvs "index" (Json.jnum 0)) = some i)
    (hreason : pyStrVal (jget kvs "reason" (Json.jstr "")) = r) :
    (1 ≤ i → i ≤ (cands.length : Int) →
      (cands.getD (i.toNat - 1) default).index < recs.length →
      _llm_adjudicate (.ok text) cands recs =
        ("ACCEPT ("
           ++ (if (cands.getD (i.toNat - 1) default).name_score ≥
                  (cands.getD (i.toNat - 1) default).employer_score
               then "Name" else "Employer")
           ++ " score="
           ++ toString (max (cands.getD (i.toNat - 1) default).name_score
                (cands.getD (i.toNat - 1) default).employer_score)
           ++ ") -> Contributor Name='"
           ++ (recs.getD (cands.getD (i.toNat - 1) default).index default).contributor_name
           ++ "', Contributor Employer='"
           ++ (recs.getD (cands.getD (i.toNat - 1) default).index default).contributor_employer
           ++ "'", [r])) ∧
    (i < 1 ∨ (cands.length : Int) < i →
      _llm_adjudicate (.ok text) cands recs = ("REVIEW (LLM)", [r])) := by
  have hp : parseRespFields text = ⟨"MATCH", i, r⟩ := by
    simp [parseRespFields, hload, hidx, hdec, hreason]
  constructor
  · intro h1 h2 _
    simp only [_llm_adjudicate, hp]
    rw [if_pos ⟨trivial, h1, h2⟩]
    rfl
  · intro hor
    simp only [_llm_adjudicate, hp]
    rw [if_neg (by rintro ⟨-, h1, h2⟩; rcases hor with h | h <;> omega)]
    rw [if_neg (by decide)]

/-- Witness for C2: a concrete MATCH response accepted in range, and a
concrete out-of-range MATCH degraded to REVIEW. -/
theorem adjudicator_match_mapping_witness :
    _llm_adjudicate (.ok "\x7b\"decision\":\"match\",\"index\":1,\"reason\":\"ok\"\x7d")
        [⟨0, "acme", "acme corp", 85, 20⟩] [⟨"Acme LLC", "Acme"⟩] =
      ("ACCEPT (Name score=85) -> Contributor Name='Acme LLC', Contributor Employer='Acme'",
       ["ok"]) ∧
    _llm_adjudicate (.ok "\x7b\"decision\":\"MATCH\",\"index\":7,\"reason\":\"ok\"\x7d")
        [⟨0, "acme", "acme corp", 85, 20⟩] [⟨"Acme LLC", "Acme"⟩] =
      ("REVIEW (LLM)", ["ok"]) := by
  constructor
  · have h := (adjudicator_match_mapping
      "\x7b\"decision\":\"match\",\"index\":1,\"reason\":\"ok\"\x7d"
      [("decision", Json.jstr "match"), ("index", Json.jnum 1), ("reason", Json.jstr "ok")]
      1 "ok" [⟨0, "acme", "acme corp", 85, 20⟩] [⟨"Acme LLC", "Acme"⟩]
      rfl (by decide) rfl rfl).1
      (by decide) (by decide) (by decide)
    exact h.trans (by decide)
  · exact (adjudicator_match_mapping
      "\x7b\"decision\":\"MATCH\",\"index\":7,\"reason\":\"ok\"\x7d"
      [("decision", Json.jstr "MATCH"), ("index", Json.jnum 7), ("reason", Json.jstr "ok")]
      7 "ok" [⟨0, "acme", "acme corp", 85, 20⟩] [⟨"Acme LLC", "Acme"⟩]
      rfl (by decide) rfl rfl).2 (by decide)

/-- Claim C3: the adjudicator absorbs failures.  A raising service call
returns the REVIEW decision labelled `(LLM error)` with the exception
message as sole detail; a response with no parseable JSON object returns
the REVIEW decision labelled `(LLM)` with the fixed detail string
`Unparseable LLM response`; the two labels are distinct; and the mention
loop of `compare` continues past any mention to process the rest. -/
theorem adjudicator_absorbs_failures (e text : String)
    (cands : List CFMatchCandidate) (recs : List CFRecord)
    (adj : String → String → List CFMatchCandidate → String × List String)
    (sl : Nat → String → List CFMatchCandidate) (config : CompareConfig)
    (m : String) (ms : List String) :
    _llm_adjudicate (.error e) cands recs = ("REVIEW (LLM error)", [e]) ∧
    ((∀ kvs, extractLoad text.data ≠ some (.jobj kvs)) →
      _llm_adjudicate (.ok text) cands recs =
        ("REVIEW (LLM)", ["Unparseable LLM response"])) ∧
    ("REVIEW (LLM error)" : String) ≠ "REVIEW (LLM)" ∧
    compareLoop adj sl config (m :: ms) =
      (processMention adj sl config m).2 ++ compareLoop adj sl config ms := by
  refine ⟨rfl, ?_, by decide, rfl⟩
  intro hno
  have hp : parseRespFields text = unparseableResp := by
    unfold parseRespFields
    cases h : extractLoad text.data with
    | none => rfl
    | some v =>
      cases v with
      | jobj kvs => exact absurd h (hno kvs)
      | jstr s => rfl
      | jnum n => rfl
      | jbool b => rfl
      | jnull => rfl
      | jarr xs => rfl
  simp only [_llm_adjudicate, hp]
  rw [if_neg (by rintro ⟨h, -⟩; exact absurd h (by decide))]
  rw [if_neg (by decide)]
  rfl

/-- Witness for C3 at a concrete non-JSON response. -/
theorem adjudicator_absorbs_failures_witness :
    _llm_adjudicate (.ok "nonsense not json") [] [] =
      ("REVIEW (LLM)", ["Unparseable LLM response"]) :=
  (adjudicator_absorbs_failures "boom" "nonsense not json" [] []
      (fun _ _ _ => ("", [])) (fun _ _ => []) ⟨0, 0, 0, "", 0⟩ "" []).2.1
    (fun kvs h => by
      rw [show extractLoad ("nonsense not json").data = none from rfl] at h
      exact Option.noConfusion h)

/-- Claim C10: a response that is a valid JSON object with `decision`
MATCH and a `reason` string, but whose `index` value cannot be converted
by `int()`, abandons the whole parse: the result is the REVIEW decision
with the fixed detail `Unparseable LLM response`, the response's own
`reason` is discarded, and the outcome equals the one for a response with
no JSON at all. -/
theorem match_with_unconvertible_index_is_unparseable (text : String)
    (kvs : List (String × Json)) (r : String)
    (cands : List CFMatchCandidate) (recs : List CFRecord)
    (hload : extractLoad text.data = some (.jobj kvs))
    (hdec : pyUpper (pyStrVal (jget kvs "decision" (Json.jstr "REVIEW"))) = "MATCH")
    (hreason : jget kvs "reason" (Json.jstr "") = Json.jstr r)
    (hidx : pyIntOfJson (jget kvs "index" (Json.jnum 0)) = none) :
    _llm_adjudicate (.ok text) cands recs =
      ("REVIEW (LLM)", ["Unparseable LLM response"]) ∧
    ∀ text', extractSlice text'.data = none →
      _llm_adjudicate (.ok text) cands recs = _llm_adjudicate (.ok text') cands recs := by
  have hp : parseRespFields text = unparseableResp := by
    simp [parseRespFields, hload, hidx]
  have hmain : _llm_adjudicate (.ok text) cands recs =
      ("REVIEW (LLM)", ["Unparseable LLM response"]) := by
    simp only [_llm_adjudicate, hp]
    rw [if_neg (by rintro ⟨h, -⟩; exact absurd h (by decide))]
    rw [if_neg (by decide)]
    rfl
  refine ⟨hmain, ?_⟩
  intro text' hnone
  have hp' : parseRespFields text' = unparseableResp := by
    unfold parseRespFields extractLoad
    rw [hnone]
    rfl
  rw [hmain]
  simp only [_llm_adjudicate, hp']
  rw [if_neg (by rintro ⟨h, -⟩; exact absurd h (by decide))]
  rw [if_neg (by decide)]
  rfl

/-- Witness for C10: `index` is the non-numeric string `"abc"`. -/
theorem match_with_unconvertible_index_is_unparseable_witness :
    _llm_adjudicate (.ok "\x7b\"decision\":\"MATCH\",\"index\":\"abc\",\"reason\":\"why\"\x7d")
        [⟨0, "acme", "b", 80, 10⟩] [⟨"A", "B"⟩] =
      ("REVIEW (LLM)", ["Unparseable LLM response"]) :=
  (match_with_unconvertible_index_is_unparseable
      "\x7b\"decision\":\"MATCH\",\"index\":\"abc\",\"reason\":\"why\"\x7d"
      [("decision", Json.jstr "MATCH"), ("index", Json.jstr "abc"),
       ("reason", Json.jstr "why")]
      "why" [⟨0, "acme", "b", 80, 10⟩] [⟨"A", "B"⟩]
      rfl (by decide) rfl rfl).1

/-- Claim C4: the report is the fixed header followed by the
concatenation of the per-mention outputs, in order; a mention whose
shortlist is empty or whose best score is at most `low_threshold`
(REJECTED), or whose adjudication decision starts with `NO_MATCH`,
contributes the empty string; a mention whose adjudication decision
starts with `ACCEPT` or `REVIEW` contributes exactly `mentionEntry`:
the original mention text, the decision label, each detail string on its
own indented line, and a blank separator line. -/
theorem report_suppression_and_format
    (adj : String → String → List CFMatchCandidate → String × List String)
    (sl : Nat → String → List CFMatchCandidate) (config : CompareConfig)
    (mentions : List String) (m : String) :
    compareReport adj sl config mentions =
      reportHeader ++ concatAll (mentions.map fun x => (processMention adj sl config x).2) ∧
    (sl config.top_k (normalize (some m)) = [] →
      (processMention adj sl config m).2 = "") ∧
    (bestScore (sl config.top_k (normalize (some m))) ≤ config.low_threshold →
      (processMention adj sl config m).2 = "") ∧
    (config.low_threshold < bestScore (sl config.top_k (normalize (some m))) →
      (pyStartsWith (adj m (normalize (some m))
          (sl config.top_k (normalize (some m)))).1 "NO_MATCH" = true →
        (processMention adj sl config m).2 = "") ∧
      (pyStartsWith (adj m (normalize (some m))
          (sl config.top_k (normalize (some m)))).1 "NO_MATCH" = false →
        (pyStartsWith (adj m (normalize (some m))
            (sl config.top_k (normalize (some m)))).1 "ACCEPT"
          || pyStartsWith (adj m (normalize (some m))
              (sl config.top_k (normalize (some m)))).1 "REVIEW") = true →
        (processMention adj sl config m).2 =
          mentionEntry m
            (adj m (normalize (some m)) (sl config.top_k (normalize (some m)))).1
            (adj m (normalize (some m)) (sl config.top_k (normalize (some m)))).2) ∧
      (pyStartsWith (adj m (normalize (some m))
          (sl config.top_k (normalize (some m)))).1 "NO_MATCH" = false →
        (pyStartsWith (adj m (normalize (some m))
            (sl config.top_k (normalize (some m)))).1 "ACCEPT"
          || pyStartsWith (adj m (normalize (some m))
              (sl config.top_k (normalize (some m)))).1 "REVIEW") = false →
        (processMention adj sl config m).2 = "")) := by
  refine ⟨?_, ?_, ?_, ?_⟩
  · unfold compareReport
    rw [compareLoop_concat]
  · intro h
    rw [processMention_eq, h, gateBody_nil]
  · intro h
    rw [processMention_eq, gateBody_low _ _ _ _ _ h]
  · intro h
    refine ⟨?_, ?_, ?_⟩
    · intro h1
      rw [processMention_eq, gateBody_escalates _ _ _ _ _ h]
      simp [h1]
    · intro h1 h2
      rw [processMention_eq, gateBody_escalates _ _ _ _ _ h]
      simp [h1, h2]
    · intro h1 h2
      rw [processMention_eq, gateBody_escalates _ _ _ _ _ h]
      simp [h1, h2]

/-- Witness for C4: a NO_MATCH mention contributes nothing; a REVIEW
mention contributes exactly its entry. -/
theorem report_suppression_and_format_witness :
    (processMention (fun _ _ _ => ("NO_MATCH (LLM)", ["d"]))
        (fun _ _ => [⟨0, "a", "b", 70, 10⟩]) ⟨3, 50, 80, "mdl", 300⟩ "Acme").2 = "" ∧
    (processMention (fun _ _ _ => ("REVIEW (LLM)", ["d"]))
        (fun _ _ => [⟨0, "a", "b", 70, 10⟩]) ⟨3, 50, 80, "mdl", 300⟩ "Acme").2 =
      "Mention: Acme\nDecision: REVIEW (LLM)\n - d\n\n" := by
  constructor
  · exact ((report_suppression_and_format (fun _ _ _ => ("NO_MATCH (LLM)", ["d"]))
      (fun _ _ => [⟨0, "a", "b", 70, 10⟩]) ⟨3, 50, 80, "mdl", 300⟩ [] "Acme").2.2.2
      (by decide)).1 (by decide)
  · have h := ((report_suppression_and_format (fun _ _ _ => ("REVIEW (LLM)", ["d"]))
      (fun _ _ => [⟨0, "a", "b", 70, 10⟩]) ⟨3, 50, 80, "mdl", 300⟩ [] "Acme").2.2.2
      (by decide)).2.1 (by decide) (by decide)
    exact h.trans (by decide)

/-- Claim C6: each invalid input — missing CF CSV file, a company file
whose extension is not `.csv`, a company CSV without the
`Company/Organization Name` column, a CF CSV without the
`Contributor Name` or `Contributor Employer` column — makes `compare`
fail with the source's descriptive error, before any mention is processed
and before any report output exists: the outcome is an `.error` (no
report text), and it is independent of the adjudicator and the
shortlister. -/
theorem fail_fast_input_validation
    (adj adj' : String → String → List CFMatchCandidate → String × List String)
    (sl sl' : Nat → String → List CFMatchCandidate) (config : CompareConfig)
    (inp : CompareInput) :
    (¬ inp.cfExists →
      compareRun adj sl config inp = .error ("CF CSV not found: " ++ inp.cfPath)) ∧
    (inp.cfExists → String.mk (pyLower inp.companySuffix.data) ≠ ".csv" →
      compareRun adj sl config inp =
        .error ("Company CSV must be .csv: " ++ inp.companyPath)) ∧
    (inp.cfExists → String.mk (pyLower inp.companySuffix.data) = ".csv" →
      "Company/Organization Name" ∉ inp.companyHeader →
      compareRun adj sl config inp =
        .error "Company CSV missing 'Company/Organization Name' column") ∧
    (inp.cfExists → String.mk (pyLower inp.companySuffix.data) = ".csv" →
      "Company/Organization Name" ∈ inp.companyHeader →
      "Contributor Name" ∉ inp.cfHeader →
      compareRun adj sl config inp =
        .error "CF CSV missing required column: Contributor Name") ∧
    (inp.cfExists → String.mk (pyLower inp.companySuffix.data) = ".csv" →
      "Company/Organization Name" ∈ inp.companyHeader →
      "Contributor Name" ∈ inp.cfHeader → "Contributor Employer" ∉ inp.cfHeader →
      compareRun adj sl config inp =
        .error "CF CSV missing required column: Contributor Employer") ∧
    ((¬ inp.cfExists ∨ String.mk (pyLower inp.companySuffix.data) ≠ ".csv" ∨
        "Company/Organization Name" ∉ inp.companyHeader ∨
        "Contributor Name" ∉ inp.cfHeader ∨ "Contributor Employer" ∉ inp.cfHeader) →
      (∃ msg, compareRun adj sl config inp = .error msg) ∧
      compareRun adj sl config inp = compareRun adj' sl' config inp) := by
  refine ⟨?_, ?_, ?_, ?_, ?_, ?_⟩
  · intro h; simp [compareRun, h]
  · intro h1 h2; simp [compareRun, h1, h2]
  · intro h1 h2 h3
    simp [compareRun, h1, h2, loadCompanyMentions, h3]
  · intro h1 h2 h3 h4
    simp [compareRun, h1, h2, loadCompanyMentions, h3, loadCfRecords, h4]
  · intro h1 h2 h3 h4 h5
    simp [compareRun, h1, h2, loadCompanyMentions, h3, loadCfRecords, h4, h5]
  · intro hbad
    by_cases h1 : inp.cfExists
    · by_cases h2 : String.mk (pyLower inp.companySuffix.data) = ".csv"
      · by_cases h3 : "Company/Organization Name" ∈ inp.companyHeader
        · by_cases h4 : "Contributor Name" ∈ inp.cfHeader
          · by_cases h5 : "Contributor Employer" ∈ inp.cfHeader
            · exact absurd hbad (by simp [h1, h2, h3, h4, h5])
            · constructor
              · exact ⟨"CF CSV missing required column: Contributor Employer",
                  by simp [compareRun, h1, h2, loadCompanyMentions, h3,
                    loadCfRecords, h4, h5]⟩
              · simp [compareRun, h1, h2, loadCompanyMentions, h3,
                  loadCfRecords, h4, h5]
          · constructor
            · exact ⟨"CF CSV missing required column: Contributor Name",
                by simp [compareRun, h1, h2, loadCompanyMentions, h3,
                  loadCfRecords, h4]⟩
            · simp [compareRun, h1, h2, loadCompanyMentions, h3, loadCfRecords, h4]
        · constructor
          · exact ⟨"Company CSV missing 'Company/Organization Name' column",
              by simp [compareRun, h1, h2, loadCompanyMentions, h3]⟩
          · simp [compareRun, h1, h2, loadCompanyMentions, h3]
      · constructor
        · exact ⟨"Company CSV must be .csv: " ++ inp.companyPath,
            by simp [compareRun, h1, h2]⟩
        · simp [compareRun, h1, h2]
    · constructor
      · exact ⟨"CF CSV not found: " ++ inp.cfPath, by simp [compareRun, h1]⟩
      · simp [compareRun, h1]

/-- Witness for C6 at a concrete input with a missing CF CSV. -/
theorem fail_fast_input_validation_witness :
    compareRun (fun _ _ _ => ("", [])) (fun _ _ => []) ⟨3, 50, 80, "mdl", 300⟩
        ⟨"data/cf.csv", false, "company.csv", ".csv",
         ["Company/Organization Name"], [], ["Contributor Name", "Contributor Employer"],
         [], []⟩ =
      .error "CF CSV not found: data/cf.csv" :=
  (fail_fast_input_validation (fun _ _ _ => ("", [])) (fun _ _ _ => ("", []))
      (fun _ _ => []) (fun _ _ => []) ⟨3, 50, 80, "mdl", 300⟩
      ⟨"data/cf.csv", false, "company.csv", ".csv",
       ["Company/Organization Name"], [], ["Contributor Name", "Contributor Employer"],
       [], []⟩).1 (by decide)

/-- Claim C9 counterexample: with max output tokens configured to 123,
the adjudication request still carries the source's literal 300
(`max_tokens=300`, line 260) — the configured value is not used. -/
theorem max_tokens_not_configurable :
    (buildAdjRequest ⟨5, 60, 85, "claude-3-haiku", 123⟩).max_tokens = 300 ∧
    (buildAdjRequest ⟨5, 60, 85, "claude-3-haiku", 123⟩).max_tokens ≠ 123 := by
  decide

/-- Claim C9 as amended: `top_k`, `low_threshold`, `high_threshold` and
the model identifier are read from the configuration — the engine passes
`top_k` to the shortlister, the thresholds to the gate, and the model to
the request, which is built with temperature 0 — but the request's max
output tokens is the fixed literal 300, identical for every configured
max-output-tokens value. -/
theorem engine_reads_config_but_max_tokens_fixed (config : CompareConfig) (mt : Nat)
    (adj : String → String → List CFMatchCandidate → String × List String)
    (sl : Nat → String → List CFMatchCandidate) (m : String) :
    (buildAdjRequest config).model = config.cf_model ∧
    (buildAdjRequest config).temperature = 0 ∧
    (buildAdjRequest config).max_tokens = 300 ∧
    buildAdjRequest { config with cf_max_tokens := mt } = buildAdjRequest config ∧
    processMention adj sl config m =
      gateBody (adj m (normalize (some m)) (sl config.top_k (normalize (some m))))
        config.low_threshold config.high_threshold m
        (sl config.top_k (normalize (some m))) :=
  ⟨rfl, rfl, rfl, rfl, rfl⟩

/-- Claim C8 counterexample: the source slices from the first `{` to the
last `}`, not the first balanced span, so a response that wraps one valid
JSON decision object in prose whose trailing part contains a brace falls
through to the unparseable REVIEW outcome instead of being parsed. -/
theorem json_extraction_takes_last_brace :
    (pyJsonLoadsL ("\x7b\"decision\": \"MATCH\", \"index\": 1, \"reason\": \"ok\"\x7d").data).isSome
      = true ∧
    _llm_adjudicate
        (.ok "Here: \x7b\"decision\": \"MATCH\", \"index\": 1, \"reason\": \"ok\"\x7d as noted \x7bearlier\x7d")
        [⟨0, "a", "b", 80, 10⟩] [⟨"A", "B"⟩] =
      ("REVIEW (LLM)", ["Unparseable LLM response"]) := by
  decide

theorem findIdx_append_first (c : Char) (p rest : List Char) (h : c ∉ p) :
    List.findIdx? (fun d => d = c) (p ++ c :: rest) = some p.length := by
  induction p with
  | nil => simp [List.findIdx?_cons]
  | cons a as ih =>
    have ha : ¬ (a = c) := fun hac => h (hac ▸ List.mem_cons_self a as)
    have has : c ∉ as := fun hm => h (List.mem_cons_of_mem a hm)
    simp [List.findIdx?_cons, ha, ih has, Option.map_some]

/-- The slice of lines 273-277 on a prose-wrapped object: when the
leading prose has no `{` and the trailing prose has no `}`, the slice is
exactly the object text. -/
theorem extractSlice_wrapped (p₁ p₂ mid : List Char)
    (h1 : '\x7b' ∉ p₁) (h2 : '\x7d' ∉ p₂) :
    extractSlice (p₁ ++ ('\x7b' :: mid ++ ['\x7d']) ++ p₂) =
      some ('\x7b' :: mid ++ ['\x7d']) := by
  have hfind : List.findIdx? (fun d => d = '\x7b')
      (p₁ ++ ('\x7b' :: mid ++ ['\x7d']) ++ p₂) = some p₁.length := by
    have := findIdx_append_first '\x7b' p₁ ((mid ++ ['\x7d']) ++ p₂) h1
    simpa using this
  have hrev : (p₁ ++ ('\x7b' :: mid ++ ['\x7d']) ++ p₂).reverse =
      p₂.reverse ++ '\x7d' :: (mid.reverse ++ '\x7b' :: p₁.reverse) := by
    simp
  have hrfind : rfindIdx (p₁ ++ ('\x7b' :: mid ++ ['\x7d']) ++ p₂) '\x7d' =
      some (p₁.length + mid.length + 1) := by
    unfold rfindIdx
    rw [hrev, findIdx_append_first '\x7d' p₂.reverse _ (by simpa using h2)]
    have hlen : (p₁ ++ ('\x7b' :: mid ++ ['\x7d']) ++ p₂).length =
        p₁.length + (mid.length + 2) + p₂.length := by
      simp; omega
    rw [hlen]
    simp
    omega
  unfold extractSlice
  rw [hfind, hrfind]
  dsimp only
  rw [if_neg (by omega)]
  have hdrop : (p₁ ++ ('\x7b' :: mid ++ ['\x7d']) ++ p₂).drop p₁.length =
      ('\x7b' :: mid ++ ['\x7d']) ++ p₂ := by
    rw [List.append_assoc, List.drop_left]
  rw [hdrop]
  have htake : (('\x7b' :: mid ++ ['\x7d']) ++ p₂).take
      (p₁.length + mid.length + 1 + 1 - p₁.length) = '\x7b' :: mid ++ ['\x7d'] := by
    have hl : ('\x7b' :: mid ++ ['\x7d']).length = mid.length + 2 := by simp
    have : p₁.length + mid.length + 1 + 1 - p₁.length =
        ('\x7b' :: mid ++ ['\x7d']).length := by rw [hl]; omega
    rw [this, List.take_left]
  rw [htake]

/-- Claim C8 as amended: before parsing, the adjudicator slices the
response from its first `{` to its last `}`; hence for every response
that wraps one valid JSON decision object in prose whose leading part
contains no `{` and whose trailing part contains no `}`, the embedded
object is recovered exactly and parsed, and the adjudication outcome is
identical to the outcome on the bare object. -/
theorem json_in_prose_is_parsed (p₁ p₂ mid : List Char) (v : Json)
    (cands : List CFMatchCandidate) (recs : List CFRecord)
    (h1 : '\x7b' ∉ p₁) (h2 : '\x7d' ∉ p₂)
    (hv : pyJsonLoadsL ('\x7b' :: mid ++ ['\x7d']) = some v) :
    extractLoad (p₁ ++ ('\x7b' :: mid ++ ['\x7d']) ++ p₂) = some v ∧
    parseRespFields (String.mk (p₁ ++ ('\x7b' :: mid ++ ['\x7d']) ++ p₂)) =
      parseRespFields (String.mk ('\x7b' :: mid ++ ['\x7d'])) ∧
    _llm_adjudicate (.ok (String.mk (p₁ ++ ('\x7b' :: mid ++ ['\x7d']) ++ p₂))) cands recs =
      _llm_adjudicate (.ok (String.mk ('\x7b' :: mid ++ ['\x7d']))) cands recs := by
  have hload : extractLoad (p₁ ++ ('\x7b' :: mid ++ ['\x7d']) ++ p₂) = some v := by
    unfold extractLoad
    rw [extractSlice_wrapped p₁ p₂ mid h1 h2]
    simpa using hv
  have hload0 : extractLoad ('\x7b' :: mid ++ ['\x7d']) = some v := by
    unfold extractLoad
    have := extractSlice_wrapped [] [] mid (by simp) (by simp)
    rw [show ([] : List Char) ++ ('\x7b' :: mid ++ ['\x7d']) ++ [] =
        '\x7b' :: mid ++ ['\x7d'] by simp] at this
    rw [this]
    simpa using hv
  have hfields : parseRespFields (String.mk (p₁ ++ ('\x7b' :: mid ++ ['\x7d']) ++ p₂)) =
      parseRespFields (String.mk ('\x7b' :: mid ++ ['\x7d'])) := by
    unfold parseRespFields
    rw [show (String.mk (p₁ ++ ('\x7b' :: mid ++ ['\x7d']) ++ p₂)).data =
        p₁ ++ ('\x7b' :: mid ++ ['\x7d']) ++ p₂ from rfl]
    rw [show (String.mk ('\x7b' :: mid ++ ['\x7d'])).data =
        '\x7b' :: mid ++ ['\x7d'] from rfl]
    rw [hload, hload0]
  refine ⟨hload, hfields, ?_⟩
  simp only [_llm_adjudicate, hfields]

/-- Witness for the amended C8: concrete prose around a concrete
NO_MATCH object leaves the adjudication outcome unchanged. -/
theorem json_in_prose_is_parsed_witness :
    _llm_adjudicate
        (.ok (String.mk ("Sure: ".data
          ++ ('\x7b' :: "\"decision\":\"NO_MATCH\",\"index\":0,\"reason\":\"r\"".data
              ++ ['\x7d'])
          ++ " done".data))) [] [] =
      _llm_adjudicate
        (.ok (String.mk
          ('\x7b' :: "\"decision\":\"NO_MATCH\",\"index\":0,\"reason\":\"r\"".data
            ++ ['\x7d']))) [] [] :=
  (json_in_prose_is_parsed "Sure: ".data " done".data
      "\"decision\":\"NO_MATCH\",\"index\":0,\"reason\":\"r\"".data
      (Json.jobj [("decision", Json.jstr "NO_MATCH"), ("index", Json.jnum 0),
        ("reason", Json.jstr "r")])
      [] [] (by decide) (by decide) rfl).2.2

/-!
## Shortlister invariants (claim C5)
-/

/-- The maximum score observed for record index `i` in a top-k result
list, folded in list order from `v` (`0` when `i` never occurs). -/
def scoreFoldFrom (i v : Nat) (ts : List (Nat × Nat)) : Nat :=
  ts.foldl (fun m p => if p.2 = i then max m p.1 else m) v

/-- The maximum score observed for record index `i` in a top-k result
list. -/
def fieldScore (i : Nat) (ts : List (Nat × Nat)) : Nat := scoreFoldFrom i 0 ts

theorem scoreFoldFrom_cons (i v : Nat) (p : Nat × Nat) (ts : List (Nat × Nat)) :
    scoreFoldFrom i v (p :: ts) =
      scoreFoldFrom i (if p.2 = i then max v p.1 else v) ts := rfl

theorem scoreFoldFrom_not_mem (i : Nat) (ts : List (Nat × Nat)) :
    ∀ v, i ∉ ts.map Prod.snd → scoreFoldFrom i v ts = v := by
  induction ts with
  | nil => intro v _; rfl
  | cons p ps ih =>
    intro v h
    rw [List.map_cons, List.mem_cons, not_or] at h
    rw [scoreFoldFrom_cons, if_neg (fun he => h.1 he.symm)]
    exact ih _ h.2

/-- The index of every accumulator entry is unchanged by the update
branch of the merge loops. -/
theorem addNameHit_index_map (p : Nat × Nat) (c : CFMatchCandidate) :
    (if c.index = p.2 then { c with name_score := max c.name_score p.1 } else c).index
      = c.index := by
  by_cases h : c.index = p.2 <;> simp [h]

theorem addNameHit_pairwise (names emps : List String)
    (acc : List CFMatchCandidate) (p : Nat × Nat)
    (hd : acc.Pairwise (fun a b => a.index ≠ b.index)) :
    (addNameHit names emps acc p).Pairwise (fun a b => a.index ≠ b.index) := by
  unfold addNameHit
  by_cases hany : acc.any (fun c => c.index = p.2)
  · rw [if_pos hany]
    rw [List.pairwise_map]
    refine hd.imp_of_mem ?_
    intro a b _ _ hab
    rw [addNameHit_index_map, addNameHit_index_map]
    exact hab
  · rw [if_neg hany]
    rw [List.pairwise_append]
    refine ⟨hd, List.pairwise_singleton _ _, ?_⟩
    intro a ha b hb
    have hb' : b = ⟨p.2, names.getD p.2 "", emps.getD p.2 "", p.1, 0⟩ := by
      simpa using hb
    subst hb'
    simp only [List.any_eq_true, not_exists, not_and] at hany
    intro he
    exact absurd (by simpa using (decide_eq_true (show a.index = p.2 from he) : _)) (by
      have := hany a ha
      simpa [he] using this)

/-- Every index present in the accumulator is still present after one
merge-loop step, and the step's own index is present afterwards. -/
theorem addNameHit_keeps_indices (names emps : List String)
    (acc : List CFMatchCandidate) (p : Nat × Nat) :
    (∀ c₀ ∈ acc, ∃ c ∈ addNameHit names emps acc p, c.index = c₀.index) ∧
    (∃ c ∈ addNameHit names emps acc p, c.index = p.2) := by
  unfold addNameHit
  by_cases hany : acc.any (fun c => c.index = p.2)
  · rw [if_pos hany]
    constructor
    · intro c₀ h₀
      exact ⟨_, List.mem_map_of_mem _ h₀, addNameHit_index_map p c₀⟩
    · rcases List.any_eq_true.mp hany with ⟨c₀, h₀, hc⟩
      have hc' : c₀.index = p.2 := of_decide_eq_true hc
      exact ⟨_, List.mem_map_of_mem _ h₀, by rw [addNameHit_index_map]; exact hc'⟩
  · rw [if_neg hany]
    constructor
    · intro c₀ h₀
      exact ⟨c₀, List.mem_append_left _ h₀, rfl⟩
    · exact ⟨_, List.mem_append_right _ (List.mem_singleton_self _), rfl⟩

theorem any_idx_false {acc : List CFMatchCandidate} {j : Nat}
    (h : ¬ (acc.any (fun c => c.index = j) = true)) : ∀ c ∈ acc, c.index ≠ j := by
  intro c hc he
  exact h (List.any_eq_true.mpr ⟨c, hc, by simp [he]⟩)

/-- Membership in one step of the name merge loop: an updated old entry
(key hit), an untouched old entry, or the freshly appended candidate. -/
theorem addNameHit_mem (names emps : List String) (acc : List CFMatchCandidate)
    (p : Nat × Nat) (c' : CFMatchCandidate) (h : c' ∈ addNameHit names emps acc p) :
    (∃ c₀ ∈ acc, c₀.index = p.2 ∧
      c' = { c₀ with name_score := max c₀.name_score p.1 }) ∨
    (∃ c₀ ∈ acc, c₀.index ≠ p.2 ∧ c' = c₀) ∨
    ((∀ c₀ ∈ acc, c₀.index ≠ p.2) ∧
      c' = ⟨p.2, names.getD p.2 "", emps.getD p.2 "", p.1, 0⟩) := by
  unfold addNameHit at h
  by_cases hany : acc.any (fun c => c.index = p.2) = true
  · rw [if_pos hany] at h
    rcases List.mem_map.mp h with ⟨c₀, h₀, he⟩
    by_cases hidx : c₀.index = p.2
    · exact Or.inl ⟨c₀, h₀, hidx, by rw [← he]; simp [hidx]⟩
    · exact Or.inr (Or.inl ⟨c₀, h₀, hidx, by rw [← he]; simp [hidx]⟩)
  · rw [if_neg hany] at h
    rcases List.mem_append.mp h with h' | h'
    · rcases any_idx_false hany c' h' with hne
      exact Or.inr (Or.inl ⟨c', h', hne, rfl⟩)
    · exact Or.inr (Or.inr ⟨any_idx_false hany, by simpa using h'⟩)

/-- Characterization of the name merge loop (lines 165-176): indices stay
pairwise distinct; every resulting candidate is either an accumulator
entry whose `name_score` accumulated the maxima of its hits and whose
other fields are untouched, or a fresh candidate for an index hit by the
list, with `employer_score` 0, the cached reference strings, and
`name_score` the maximum of its hits; and no index disappears. -/
theorem addName_fold (names emps : List String) (ts : List (Nat × Nat)) :
    ∀ acc : List CFMatchCandidate,
      acc.Pairwise (fun a b => a.index ≠ b.index) →
      (ts.foldl (addNameHit names emps) acc).Pairwise (fun a b => a.index ≠ b.index) ∧
      (∀ c ∈ ts.foldl (addNameHit names emps) acc,
        (∃ c₀ ∈ acc, c.index = c₀.index ∧
          c.contributor_name = c₀.contributor_name ∧
          c.contributor_employer = c₀.contributor_employer ∧
          c.employer_score = c₀.employer_score ∧
          c.name_score = scoreFoldFrom c.index c₀.name_score ts) ∨
        ((∀ c₀ ∈ acc, c.index ≠ c₀.index) ∧ c.index ∈ ts.map Prod.snd ∧
          c.contributor_name = names.getD c.index "" ∧
          c.contributor_employer = emps.getD c.index "" ∧
          c.employer_score = 0 ∧
          c.name_score = scoreFoldFrom c.index 0 ts)) ∧
      (∀ c₀ ∈ acc, ∃ c ∈ ts.foldl (addNameHit names emps) acc, c.index = c₀.index) ∧
      (∀ p ∈ ts, ∃ c ∈ ts.foldl (addNameHit names emps) acc, c.index = p.2) := by
  induction ts with
  | nil =>
    intro acc hd
    refine ⟨hd, ?_, ?_, ?_⟩
    · intro c hc
      exact Or.inl ⟨c, hc, rfl, rfl, rfl, rfl, rfl⟩
    · intro c₀ h₀; exact ⟨c₀, h₀, rfl⟩
    · intro p hp; cases hp
  | cons p ps ih =>
    intro acc hd
    have hd' := addNameHit_pairwise names emps acc p hd
    obtain ⟨ih1, ih2, ih3, ih4⟩ := ih (addNameHit names emps acc p) hd'
    obtain ⟨hkeep, hpidx⟩ := addNameHit_keeps_indices names emps acc p
    rw [List.foldl_cons]
    refine ⟨ih1, ?_, ?_, ?_⟩
    · intro c hc
      rcases ih2 c hc with ⟨c₀', h₀', hidx', hcn', hce', hes', hns'⟩ | hnew
      · rcases addNameHit_mem names emps acc p c₀' h₀' with
          ⟨c₀, h₀, hpe, he⟩ | ⟨c₀, h₀, hpe, he⟩ | ⟨hall, he⟩
        · refine Or.inl ⟨c₀, h₀, ?_, ?_, ?_, ?_, ?_⟩
          · rw [hidx', he]
          · rw [hcn', he]
          · rw [hce', he]
          · rw [hes', he]
          · have hci : c.index = p.2 := by rw [hidx', he]; exact hpe
            have hns0 : c₀'.name_score = max c₀.name_score p.1 := by rw [he]
            rw [scoreFoldFrom_cons, if_pos hci.symm, ← hns0]
            exact hns'
        · refine Or.inl ⟨c₀, h₀, ?_, ?_, ?_, ?_, ?_⟩
          · rw [hidx', he]
          · rw [hcn', he]
          · rw [hce', he]
          · rw [hes', he]
          · have hci : c.index ≠ p.2 := by rw [hidx', he]; exact hpe
            have hns0 : c₀'.name_score = c₀.name_score := by rw [he]
            rw [scoreFoldFrom_cons, if_neg (fun hx => hci hx.symm), ← hns0]
            exact hns'
        · -- the freshly appended candidate for index p.2
          refine Or.inr ⟨?_, ?_, ?_, ?_, ?_, ?_⟩
          · intro c₀ h₀
            have hci : c.index = p.2 := by rw [hidx', he]
            rw [hci]
            exact fun hx => hall c₀ h₀ hx.symm
          · have hci : c.index = p.2 := by rw [hidx', he]
            rw [List.map_cons, hci]
            exact List.mem_cons_self _ _
          · have hci : c.index = p.2 := by rw [hidx', he]
            rw [hcn', he, hci]
          · have hci : c.index = p.2 := by rw [hidx', he]
            rw [hce', he, hci]
          · rw [hes', he]
          · have hci : c.index = p.2 := by rw [hidx', he]
            have hns0 : c₀'.name_score = p.1 := by rw [he]
            rw [scoreFoldFrom_cons, if_pos hci.symm, Nat.zero_max, ← hns0]
            exact hns'
      · obtain ⟨hnot', hmem', hcn', hce', hes', hns'⟩ := hnew
        refine Or.inr ⟨?_, ?_, hcn', hce', hes', ?_⟩
        · intro c₀ h₀
          obtain ⟨c'', h'', he''⟩ := hkeep c₀ h₀
          have hne := hnot' c'' h''
          rw [he''] at hne
          exact hne
        · rw [List.map_cons]
          exact List.mem_cons_of_mem _ hmem'
        · obtain ⟨c'', h'', he''⟩ := hpidx
          have hne := hnot' c'' h''
          rw [he''] at hne
          rw [scoreFoldFrom_cons, if_neg (fun hx => hne hx.symm)]
          exact hns'
    · intro c₀ h₀
      obtain ⟨c'', h'', he''⟩ := hkeep c₀ h₀
      obtain ⟨c, hc, he⟩ := ih3 c'' h''
      exact ⟨c, hc, by rw [he, he'']⟩
    · intro q hq
      rcases List.mem_cons.mp hq with rfl | hq'
      · obtain ⟨c'', h'', he''⟩ := hpidx
        obtain ⟨c, hc, he⟩ := ih3 c'' h''
        exact ⟨c, hc, by rw [he, he'']⟩
      · exact ih4 q hq'

theorem addEmpHit_index_map (p : Nat × Nat) (c : CFMatchCandidate) :
    (if c.index = p.2 then { c with employer_score := max c.employer_score p.1 }
     else c).index = c.index := by
  by_cases h : c.index = p.2 <;> simp [h]

theorem addEmpHit_pairwise (names emps : List String)
    (acc : List CFMatchCandidate) (p : Nat × Nat)
    (hd : acc.Pairwise (fun a b => a.index ≠ b.index)) :
    (addEmpHit names emps acc p).Pairwise (fun a b => a.index ≠ b.index) := by
  unfold addEmpHit
  by_cases hany : acc.any (fun c => c.index = p.2) = true
  · rw [if_pos hany]
    rw [List.pairwise_map]
    refine hd.imp_of_mem ?_
    intro a b _ _ hab
    rw [addEmpHit_index_map, addEmpHit_index_map]
    exact hab
  · rw [if_neg hany]
    rw [List.pairwise_append]
    refine ⟨hd, List.pairwise_singleton _ _, ?_⟩
    intro a ha b hb
    have hb' : b = ⟨p.2, names.getD p.2 "", emps.getD p.2 "", 0, p.1⟩ := by
      simpa using hb
    subst hb'
    exact any_idx_false hany a ha

theorem addEmpHit_keeps_indices (names emps : List String)
    (acc : List CFMatchCandidate) (p : Nat × Nat) :
    (∀ c₀ ∈ acc, ∃ c ∈ addEmpHit names emps acc p, c.index = c₀.index) ∧
    (∃ c ∈ addEmpHit names emps acc p, c.index = p.2) := by
  unfold addEmpHit
  by_cases hany : acc.any (fun c => c.index = p.2) = true
  · rw [if_pos hany]
    constructor
    · intro c₀ h₀
      exact ⟨_, List.mem_map_of_mem _ h₀, addEmpHit_index_map p c₀⟩
    · rcases List.any_eq_true.mp hany with ⟨c₀, h₀, hc⟩
      have hc' : c₀.index = p.2 := of_decide_eq_true hc
      exact ⟨_, List.mem_map_of_mem _ h₀, by rw [addEmpHit_index_map]; exact hc'⟩
  · rw [if_neg hany]
    constructor
    · intro c₀ h₀
      exact ⟨c₀, List.mem_append_left _ h₀, rfl⟩
    · exact ⟨_, List.mem_append_right _ (List.mem_singleton_self _), rfl⟩

theorem addEmpHit_mem (names emps : List String) (acc : List CFMatchCandidate)
    (p : Nat × Nat) (c' : CFMatchCandidate) (h : c' ∈ addEmpHit names emps acc p) :
    (∃ c₀ ∈ acc, c₀.index = p.2 ∧
      c' = { c₀ with employer_score := max c₀.employer_score p.1 }) ∨
    (∃ c₀ ∈ acc, c₀.index ≠ p.2 ∧ c' = c₀) ∨
    ((∀ c₀ ∈ acc, c₀.index ≠ p.2) ∧
      c' = ⟨p.2, names.getD p.2 "", emps.getD p.2 "", 0, p.1⟩) := by
  unfold addEmpHit at h
  by_cases hany : acc.any (fun c => c.index = p.2) = true
  · rw [if_pos hany] at h
    rcases List.mem_map.mp h with ⟨c₀, h₀, he⟩
    by_cases hidx : c₀.index = p.2
    · exact Or.inl ⟨c₀, h₀, hidx, by rw [← he]; simp [hidx]⟩
    · exact Or.inr (Or.inl ⟨c₀, h₀, hidx, by rw [← he]; simp [hidx]⟩)
  · rw [if_neg hany] at h
    rcases List.mem_append.mp h with h' | h'
    · rcases any_idx_false hany c' h' with hne
      exact Or.inr (Or.inl ⟨c', h', hne, rfl⟩)
    · exact Or.inr (Or.inr ⟨any_idx_false hany, by simpa using h'⟩)

/-- Characterization of the employer merge loop (lines 177-188),
symmetric to `addName_fold`: `employer_score` accumulates the maxima of
the hits, `name_score` and the cached strings are untouched, and fresh
candidates carry `name_score` 0. -/
theorem addEmp_fold (names emps : List String) (ts : List (Nat × Nat)) :
    ∀ acc : List CFMatchCandidate,
      acc.Pairwise (fun a b => a.index ≠ b.index) →
      (ts.foldl (addEmpHit names emps) acc).Pairwise (fun a b => a.index ≠ b.index) ∧
      (∀ c ∈ ts.foldl (addEmpHit names emps) acc,
        (∃ c₀ ∈ acc, c.index = c₀.index ∧
          c.contributor_name = c₀.contributor_name ∧
          c.contributor_employer = c₀.contributor_employer ∧
          c.name_score = c₀.name_score ∧
          c.employer_score = scoreFoldFrom c.index c₀.employer_score ts) ∨
        ((∀ c₀ ∈ acc, c.index ≠ c₀.index) ∧ c.index ∈ ts.map Prod.snd ∧
          c.contributor_name = names.getD c.index "" ∧
          c.contributor_employer = emps.getD c.index "" ∧
          c.name_score = 0 ∧
          c.employer_score = scoreFoldFrom c.index 0 ts)) ∧
      (∀ c₀ ∈ acc, ∃ c ∈ ts.foldl (addEmpHit names emps) acc, c.index = c₀.index) ∧
      (∀ p ∈ ts, ∃ c ∈ ts.foldl (addEmpHit names emps) acc, c.index = p.2) := by
  induction ts with
  | nil =>
    intro acc hd
    refine ⟨hd, ?_, ?_, ?_⟩
    · intro c hc
      exact Or.inl ⟨c, hc, rfl, rfl, rfl, rfl, rfl⟩
    · intro c₀ h₀; exact ⟨c₀, h₀, rfl⟩
    · intro p hp; cases hp
  | cons p ps ih =>
    intro acc hd
    have hd' := addEmpHit_pairwise names emps acc p hd
    obtain ⟨ih1, ih2, ih3, ih4⟩ := ih (addEmpHit names emps acc p) hd'
    obtain ⟨hkeep, hpidx⟩ := addEmpHit_keeps_indices names emps acc p
    rw [List.foldl_cons]
    refine ⟨ih1, ?_, ?_, ?_⟩
    · intro c hc
      rcases ih2 c hc with ⟨c₀', h₀', hidx', hcn', hce', hns', hes'⟩ | hnew
      · rcases addEmpHit_mem names emps acc p c₀' h₀' with
          ⟨c₀, h₀, hpe, he⟩ | ⟨c₀, h₀, hpe, he⟩ | ⟨hall, he⟩
        · refine Or.inl ⟨c₀, h₀, ?_, ?_, ?_, ?_, ?_⟩
          · rw [hidx', he]
          · rw [hcn', he]
          · rw [hce', he]
          · rw [hns', he]
          · have hci : c.index = p.2 := by rw [hidx', he]; exact hpe
            have hes0 : c₀'.employer_score = max c₀.employer_score p.1 := by rw [he]
            rw [scoreFoldFrom_cons, if_pos hci.symm, ← hes0]
            exact hes'
        · refine Or.inl ⟨c₀, h₀, ?_, ?_, ?_, ?_, ?_⟩
          · rw [hidx', he]
          · rw [hcn', he]
          · rw [hce', he]
          · rw [hns', he]
          · have hci : c.index ≠ p.2 := by rw [hidx', he]; exact hpe
            have hes0 : c₀'.employer_score = c₀.employer_score := by rw [he]
            rw [scoreFoldFrom_cons, if_neg (fun hx => hci hx.symm), ← hes0]
            exact hes'
        · refine Or.inr ⟨?_, ?_, ?_, ?_, ?_, ?_⟩
          · intro c₀ h₀
            have hci : c.index = p.2 := by rw [hidx', he]
            rw [hci]
            exact fun hx => hall c₀ h₀ hx.symm
          · have hci : c.index = p.2 := by rw [hidx', he]
            rw [List.map_cons, hci]
            exact List.mem_cons_self _ _
          · have hci : c.index = p.2 := by rw [hidx', he]
            rw [hcn', he, hci]
          · have hci : c.index = p.2 := by rw [hidx', he]
            rw [hce', he, hci]
          · rw [hns', he]
          · have hci : c.index = p.2 := by rw [hidx', he]
            have hes0 : c₀'.employer_score = p.1 := by rw [he]
            rw [scoreFoldFrom_cons, if_pos hci.symm, Nat.zero_max, ← hes0]
            exact hes'
      · obtain ⟨hnot', hmem', hcn', hce', hns', hes'⟩ := hnew
        refine Or.inr ⟨?_, ?_, hcn', hce', hns', ?_⟩
        · intro c₀ h₀
          obtain ⟨c'', h'', he''⟩ := hkeep c₀ h₀
          have hne := hnot' c'' h''
          rw [he''] at hne
          exact hne
        · rw [List.map_cons]
          exact List.mem_cons_of_mem _ hmem'
        · obtain ⟨c'', h'', he''⟩ := hpidx
          have hne := hnot' c'' h''
          rw [he''] at hne
          rw [scoreFoldFrom_cons, if_neg (fun hx => hne hx.symm)]
          exact hes'
    · intro c₀ h₀
      obtain ⟨c'', h'', he''⟩ := hkeep c₀ h₀
      obtain ⟨c, hc, he⟩ := ih3 c'' h''
      exact ⟨c, hc, by rw [he, he'']⟩
    · intro q hq
      rcases List.mem_cons.mp hq with rfl | hq'
      · obtain ⟨c'', h'', he''⟩ := hpidx
        obtain ⟨c, hc, he⟩ := ih3 c'' h''
        exact ⟨c, hc, by rw [he, he'']⟩
      · exact ih4 q hq'

theorem insertDesc_perm (x : CFMatchCandidate) (l : List CFMatchCandidate) :
    (insertDesc x l).Perm (x :: l) := by
  induction l with
  | nil => exact List.Perm.refl _
  | cons y ys ih =>
    unfold insertDesc
    by_cases h : candKey x ≥ candKey y
    · rw [if_pos h]
    · rw [if_neg h]
      exact (ih.cons y).trans (List.Perm.swap x y ys)

theorem sortDesc_perm (l : List CFMatchCandidate) : (sortDesc l).Perm l := by
  induction l with
  | nil => exact List.Perm.refl _
  | cons x xs ih => exact (insertDesc_perm x (sortDesc xs)).trans (ih.cons x)

theorem insertDesc_sorted (x : CFMatchCandidate) (l : List CFMatchCandidate)
    (h : l.Sorted (fun a b => candKey b ≤ candKey a)) :
    (insertDesc x l).Sorted (fun a b => candKey b ≤ candKey a) := by
  induction l with
  | nil => simp [insertDesc]
  | cons y ys ih =>
    rw [List.sorted_cons] at h
    obtain ⟨hy, hys⟩ := h
    unfold insertDesc
    by_cases hxy : candKey x ≥ candKey y
    · rw [if_pos hxy]
      rw [List.sorted_cons]
      refine ⟨?_, List.sorted_cons.mpr ⟨hy, hys⟩⟩
      intro b hb
      rcases List.mem_cons.mp hb with rfl | hb'
      · exact hxy
      · exact le_trans (hy b hb') hxy
    · rw [if_neg hxy]
      rw [List.sorted_cons]
      refine ⟨?_, ih hys⟩
      intro b hb
      rcases List.mem_cons.mp ((insertDesc_perm x ys).mem_iff.mp hb) with rfl | hb'
      · exact le_of_not_le hxy
      · exact hy b hb'

theorem sortDesc_sorted (l : List CFMatchCandidate) :
    (sortDesc l).Sorted (fun a b => candKey b ≤ candKey a) := by
  induction l with
  | nil => simp [sortDesc]
  | cons x xs ih => exact insertDesc_sorted x _ ih

/-- Claim C5: the merged shortlist has at most one candidate per record
index (pairwise distinct indices); every candidate's `name_score` is the
maximum score observed for its index in the name top-k list (so a record
surfaced only by the employer search has `name_score` 0) and its
`employer_score` is the maximum observed in the employer top-k list (so a
record surfaced only by the name search has `employer_score` 0); and the
result is sorted descending by `max(name_score, employer_score)`. -/
theorem shortlist_merge_invariants (cf_names cf_employers : List String)
    (topNames topEmps : List (Nat × Nat)) :
    (shortlistMerge cf_names cf_employers topNames topEmps).Pairwise
      (fun a b => a.index ≠ b.index) ∧
    (∀ c ∈ shortlistMerge cf_names cf_employers topNames topEmps,
      c.name_score = fieldScore c.index topNames ∧
      c.employer_score = fieldScore c.index topEmps ∧
      (c.index ∉ topNames.map Prod.snd → c.name_score = 0) ∧
      (c.index ∉ topEmps.map Prod.snd → c.employer_score = 0)) ∧
    (shortlistMerge cf_names cf_employers topNames topEmps).Sorted
      (fun a b => candKey b ≤ candKey a) := by
  obtain ⟨f1pw, f1mem, f1keep, f1all⟩ :=
    addName_fold cf_names cf_employers topNames [] List.Pairwise.nil
  obtain ⟨f2pw, f2mem, f2keep, f2all⟩ :=
    addEmp_fold cf_names cf_employers topEmps
      (topNames.foldl (addNameHit cf_names cf_employers) []) f1pw
  have hun : shortlistMerge cf_names cf_employers topNames topEmps =
      sortDesc (topEmps.foldl (addEmpHit cf_names cf_employers)
        (topNames.foldl (addNameHit cf_names cf_employers) [])) := rfl
  have hperm := sortDesc_perm (topEmps.foldl (addEmpHit cf_names cf_employers)
    (topNames.foldl (addNameHit cf_names cf_employers) []))
  refine ⟨?_, ?_, ?_⟩
  · rw [hun]
    exact (hperm.pairwise_iff (fun h he => h he.symm)).mpr f2pw
  · intro c hc
    rw [hun] at hc
    have hc2 := hperm.mem_iff.mp hc
    have hnamefacts :
        c.name_score = fieldScore c.index topNames ∧
        c.employer_score = fieldScore c.index topEmps := by
      rcases f2mem c hc2 with ⟨c₀, h₀, hidx, _, _, hns, hes⟩ |
        ⟨hnot, _, _, _, hns, hes⟩
      · rcases f1mem c₀ h₀ with ⟨c₀₀, h₀₀, _⟩ | ⟨_, _, _, _, hes0, hns0⟩
        · cases h₀₀
        · constructor
          · rw [hns, hns0, hidx]
            rfl
          · rw [hes, hes0]
            rfl
      · constructor
        · rw [hns]
          have hnotmem : c.index ∉ topNames.map Prod.snd := by
            intro hmem
            rcases List.mem_map.mp hmem with ⟨q, hq, hq2⟩
            obtain ⟨c', hc', he'⟩ := f1all q hq
            exact hnot c' hc' (by rw [← hq2, he'])
          rw [show fieldScore c.index topNames = 0 from
            scoreFoldFrom_not_mem c.index topNames 0 hnotmem]
        · exact hes
    refine ⟨hnamefacts.1, hnamefacts.2, ?_, ?_⟩
    · intro hnm
      rw [hnamefacts.1]
      exact scoreFoldFrom_not_mem c.index topNames 0 hnm
    · intro hnm
      rw [hnamefacts.2]
      exact scoreFoldFrom_not_mem c.index topEmps 0 hnm
  · rw [hun]
    exact sortDesc_sorted _

/-- Witness for C5 at a concrete merge with an employer-side miss. -/
theorem shortlist_merge_invariants_witness :
    (⟨0, "acme", "emp", 90, 0⟩ : CFMatchCandidate).name_score =
      fieldScore 0 [(90, 0)] ∧
    (⟨0, "acme", "emp", 90, 0⟩ : CFMatchCandidate).employer_score = 0 := by
  have h := (shortlist_merge_invariants ["acme"] ["emp"] [(90, 0)] []).2.1
    ⟨0, "acme", "emp", 90, 0⟩ (by decide)
  exact ⟨h.1, h.2.2.2 (by decide)⟩

/-!
## Normalizer algebra (claim C7)

The proof of idempotence goes through a canonical form: the output of
`normalize` is a single-space join of its maximal word-character runs,
none of which is a corporate-suffix token, and every character of which
is lower-stable.  Each pipeline stage fixes such strings.
-/

theorem lowerChar_shift (n : Nat) (h1 : 65 ≤ n) (h2 : n ≤ 90) :
    lowerChar (Char.ofNat (n + 32)) = Char.ofNat (n + 32) := by
  interval_cases n <;> decide

theorem lowerChar_idem (c : Char) : lowerChar (lowerChar c) = lowerChar c := by
  by_cases h : (65 ≤ c.toNat && c.toNat ≤ 90) = true
  · have h' : 65 ≤ c.toNat ∧ c.toNat ≤ 90 := by simpa using h
    have hc : lowerChar c = Char.ofNat (c.toNat + 32) := by
      simp only [lowerChar, if_pos h]
    rw [hc]
    exact lowerChar_shift c.toNat h'.1 h'.2
  · have hc : lowerChar c = c := by simp only [lowerChar, if_neg h]
    rw [hc, hc]

theorem isSpaceChar_eq_false_of_word (c : Char) (h : isWordChar c = true) :
    isSpaceChar c = false := by
  cases hx : isSpaceChar c
  · rfl
  · exfalso
    have hs' := hx
    simp only [isSpaceChar, Bool.or_eq_true, decide_eq_true_eq] at hs'
    obtain ((((h1 | h1) | h1) | h1) | h1) | h1 := hs' <;> subst h1 <;>
      exact absurd h (by decide)

/-- The eight purely-alphabetic alternatives of the suffix pattern. -/
def plainTokens : List (List Char) :=
  ["incorporated".data, "inc".data, "llc".data, "ltd".data, "co".data,
   "corp".data, "corporation".data, "plc".data]

theorem plainTokens_word (t : List Char) (h : t ∈ plainTokens) :
    t ≠ [] ∧ ∀ c ∈ t, isWordChar c = true := by
  simp only [plainTokens, List.mem_cons, List.not_mem_nil, or_false] at h
  rcases h with rfl | rfl | rfl | rfl | rfl | rfl | rfl | rfl <;>
    exact ⟨by decide, by decide⟩

theorem plainTokens_last_word (t : List Char) (h : t ∈ plainTokens) :
    isWordChar (t.getLastD ' ') = true := by
  simp only [plainTokens, List.mem_cons, List.not_mem_nil, or_false] at h
  rcases h with rfl | rfl | rfl | rfl | rfl | rfl | rfl | rfl <;> decide

theorem plainTokens_in_alts (t : List Char) (h : t ∈ plainTokens) :
    (t, false) ∈ suffixAlts := by
  simp only [plainTokens, List.mem_cons, List.not_mem_nil, or_false] at h
  rcases h with rfl | rfl | rfl | rfl | rfl | rfl | rfl | rfl <;> decide

theorem foldr_orElse_some {α β : Type} (f : α → Option β) (xs : List α) (b : β)
    (h : xs.foldr (fun x acc => (f x).orElse fun _ => acc) none = some b) :
    ∃ x ∈ xs, f x = some b := by
  induction xs with
  | nil => cases h
  | cons x xs ih =>
    rw [List.foldr_cons] at h
    cases hx : f x with
    | some y =>
      rw [hx] at h
      exact ⟨x, List.mem_cons_self _ _, by rw [hx]; simpa using h⟩
    | none =>
      rw [hx] at h
      simp only [Option.orElse] at h
      obtain ⟨x', hx', he⟩ := ih h
      exact ⟨x', List.mem_cons_of_mem _ hx', he⟩

theorem foldr_orElse_none {α β : Type} (f : α → Option β) (xs : List α)
    (h : ∀ x ∈ xs, f x = none) :
    xs.foldr (fun x acc => (f x).orElse fun _ => acc) none = none := by
  induction xs with
  | nil => rfl
  | cons x xs ih =>
    rw [List.foldr_cons, h x (List.mem_cons_self _ _)]
    exact ih fun x' hx' => h x' (List.mem_cons_of_mem _ hx')

theorem tryAlt_some {t : List Char} {fl : Bool} {l t' rest : List Char}
    (h : tryAlt t fl l = some (t', rest)) :
    t' = t ∧ l = t ++ rest ∧
      (if fl then bAfterDot rest else bAfterWord rest) = true := by
  unfold tryAlt at h
  by_cases hc : (t.isPrefixOf l &&
      (if fl then bAfterDot (l.drop t.length) else bAfterWord (l.drop t.length))) = true
  · rw [if_pos hc] at h
    obtain ⟨hp, hb⟩ := Bool.and_eq_true_iff.mp hc
    have hpre : t <+: l := by
      rwa [List.isPrefixOf_iff_prefix] at hp
    obtain ⟨s, rfl⟩ := hpre
    rw [List.drop_left] at h hb
    have h2 := Option.some.inj h
    rw [Prod.mk.injEq] at h2
    obtain ⟨rfl, rfl⟩ := h2
    exact ⟨rfl, rfl, hb⟩
  · rw [if_neg hc] at h
    cases h

theorem tryAlts_some_char (l t rest : List Char)
    (h : tryAlts l = some (t, rest)) :
    l = t ++ rest ∧
      ((t ∈ plainTokens ∧ bAfterWord rest = true ∧
          isWordChar (t.getLastD ' ') = true) ∨
        (t = "l.l.c.".data ∧ bAfterDot rest = true ∧ t.getLastD ' ' = '.')) := by
  obtain ⟨td, htd, he⟩ := foldr_orElse_some _ _ _ h
  simp only [suffixAlts, List.mem_cons, List.not_mem_nil, or_false] at htd
  rcases htd with rfl | rfl | rfl | rfl | rfl | rfl | rfl | rfl | rfl
  · obtain ⟨rfl, h2, h3⟩ := tryAlt_some he
    exact ⟨h2, Or.inl ⟨by decide, by simpa using h3, by decide⟩⟩
  · obtain ⟨rfl, h2, h3⟩ := tryAlt_some he
    exact ⟨h2, Or.inl ⟨by decide, by simpa using h3, by decide⟩⟩
  · obtain ⟨rfl, h2, h3⟩ := tryAlt_some he
    exact ⟨h2, Or.inl ⟨by decide, by simpa using h3, by decide⟩⟩
  · obtain ⟨rfl, h2, h3⟩ := tryAlt_some he
    exact ⟨h2, Or.inr ⟨rfl, by simpa using h3, by decide⟩⟩
  · obtain ⟨rfl, h2, h3⟩ := tryAlt_some he
    exact ⟨h2, Or.inl ⟨by decide, by simpa using h3, by decide⟩⟩
  · obtain ⟨rfl, h2, h3⟩ := tryAlt_some he
    exact ⟨h2, Or.inl ⟨by decide, by simpa using h3, by decide⟩⟩
  · obtain ⟨rfl, h2, h3⟩ := tryAlt_some he
    exact ⟨h2, Or.inl ⟨by decide, by simpa using h3, by decide⟩⟩
  · obtain ⟨rfl, h2, h3⟩ := tryAlt_some he
    exact ⟨h2, Or.inl ⟨by decide, by simpa using h3, by decide⟩⟩
  · obtain ⟨rfl, h2, h3⟩ := tryAlt_some he
    exact ⟨h2, Or.inl ⟨by decide, by simpa using h3, by decide⟩⟩

theorem foldr_orElse_none_rev {α β : Type} (f : α → Option β) (xs : List α)
    (h : xs.foldr (fun x acc => (f x).orElse fun _ => acc) none = none) :
    ∀ x ∈ xs, f x = none := by
  induction xs with
  | nil => intro x hx; cases hx
  | cons y ys ih =>
    rw [List.foldr_cons] at h
    cases hy : f y with
    | some p => rw [hy] at h; simp [Option.orElse] at h
    | none =>
      rw [hy] at h
      simp only [Option.orElse] at h
      intro x hx
      rcases List.mem_cons.mp hx with rfl | hx'
      · exact hy
      · exact ih h x hx'

theorem tryAlts_none_all (l : List Char) (h : tryAlts l = none) :
    ∀ td ∈ suffixAlts, tryAlt td.1 td.2 l = none := by
  unfold tryAlts at h
  exact foldr_orElse_none_rev (fun td => tryAlt td.1 td.2 l) suffixAlts h

/-- A plain token followed by a word boundary always matches: the scan
cannot pass over it. -/
theorem tryAlts_token_matches (tok z : List Char) (htok : tok ∈ plainTokens)
    (hz : bAfterWord z = true) : tryAlts (tok ++ z) ≠ none := by
  intro hnone
  have hall := tryAlts_none_all (tok ++ z) hnone (tok, false) (plainTokens_in_alts tok htok)
  unfold tryAlt at hall
  rw [if_pos] at hall
  · cases hall
  · rw [Bool.and_eq_true_iff]
    constructor
    · rw [List.isPrefixOf_iff_prefix]
      exact List.prefix_append tok z
    · rw [List.drop_left]
      simpa using hz

/-- No alternative matches at a non-word character: every alternative
starts with a word character. -/
theorem tryAlts_nonword_head (c : Char) (cs : List Char)
    (h : isWordChar c = false) : tryAlts (c :: cs) = none := by
  apply foldr_orElse_none
  intro td htd
  have hne : ∀ t0 : Char, isWordChar t0 = true → (t0 == c) = false := by
    intro t0 ht0
    cases hbe : t0 == c
    · rfl
    · exfalso
      have : t0 = c := eq_of_beq hbe
      rw [this, h] at ht0
      cases ht0
  simp only [suffixAlts, List.mem_cons, List.not_mem_nil, or_false] at htd
  rcases htd with rfl | rfl | rfl | rfl | rfl | rfl | rfl | rfl | rfl <;>
    · unfold tryAlt
      rw [if_neg]
      simp only [Bool.and_eq_true_iff, not_and]
      intro hp
      exfalso
      simp only [List.isPrefixOf] at hp
      rw [Bool.and_eq_true_iff] at hp
      exact absurd hp.1 (by rw [hne _ (by decide)]; simp)

theorem length_dropWhile_le' (p : Char → Bool) (l : List Char) :
    (l.dropWhile p).length ≤ l.length := by
  induction l with
  | nil => simp [List.dropWhile]
  | cons a l ih =>
    rw [List.dropWhile_cons]
    by_cases h : p a = true
    · rw [if_pos h]
      exact Nat.le_succ_of_le ih
    · rw [if_neg h]

/-- The maximal word-character runs of a string, in order. -/
def wordChunks : List Char → List (List Char)
  | [] => []
  | c :: cs =>
    if isWordChar c then
      (c :: cs.takeWhile isWordChar) :: wordChunks (cs.dropWhile isWordChar)
    else wordChunks cs
termination_by l => l.length
decreasing_by
  · simp only [List.length_cons]
    exact Nat.lt_succ_of_le (length_dropWhile_le' _ _)
  · simp

/-- Single-space join of a chunk list. -/
def joinSp : List (List Char) → List Char
  | [] => []
  | [w] => w
  | w :: ws => w ++ ' ' :: joinSp ws

theorem wordChunks_nil : wordChunks [] = [] := by
  rw [wordChunks.eq_def]

theorem wordChunks_cons_word {c : Char} {cs : List Char} (h : isWordChar c = true) :
    wordChunks (c :: cs) =
      (c :: cs.takeWhile isWordChar) :: wordChunks (cs.dropWhile isWordChar) := by
  conv_lhs => rw [wordChunks.eq_def]
  dsimp only
  rw [if_pos h]

theorem wordChunks_cons_nonword {c : Char} {cs : List Char}
    (h : isWordChar c = false) : wordChunks (c :: cs) = wordChunks cs := by
  conv_lhs => rw [wordChunks.eq_def]
  dsimp only
  rw [if_neg (by simp [h])]

theorem joinSp_cons {w : List Char} {ws : List (List Char)} (h : ws ≠ []) :
    joinSp (w :: ws) = w ++ ' ' :: joinSp ws := by
  cases ws with
  | nil => exact absurd rfl h
  | cons w2 ws2 => rfl

theorem joinSp_ne_nil {ws : List (List Char)} (h : ws ≠ [])
    (hall : ∀ w ∈ ws, w ≠ []) : joinSp ws ≠ [] := by
  cases ws with
  | nil => exact absurd rfl h
  | cons w ws' =>
    cases ws' with
    | nil => exact hall w (List.mem_cons_self _ _)
    | cons w2 ws2 =>
      rw [joinSp_cons (by simp)]
      intro he
      rcases List.append_eq_nil.mp he with ⟨h1, h2⟩
      cases h2

theorem map_id_of_mem {f : Char → Char} {l : List Char}
    (h : ∀ c ∈ l, f c = c) : l.map f = l := by
  induction l with
  | nil => rfl
  | cons a l ih =>
    rw [List.map_cons, h a (List.mem_cons_self _ _),
      ih fun c hc => h c (List.mem_cons_of_mem _ hc)]

theorem takeWhile_all_append (p : Char → Bool) (w z : List Char)
    (hw : ∀ c ∈ w, p c = true) :
    (w ++ z).takeWhile p = w ++ z.takeWhile p := by
  induction w with
  | nil => rfl
  | cons a w' ih =>
    rw [List.cons_append, List.takeWhile_cons, if_pos (hw a (List.mem_cons_self _ _)),
      ih fun c hc => hw c (List.mem_cons_of_mem _ hc), List.cons_append]

theorem dropWhile_all_append (p : Char → Bool) (w z : List Char)
    (hw : ∀ c ∈ w, p c = true) :
    (w ++ z).dropWhile p = z.dropWhile p := by
  induction w with
  | nil => rfl
  | cons a w' ih =>
    rw [List.cons_append, List.dropWhile_cons, if_pos (hw a (List.mem_cons_self _ _)),
      ih fun c hc => hw c (List.mem_cons_of_mem _ hc)]

theorem head_dropWhile_false (p : Char → Bool) :
    ∀ (l : List Char) (d : Char) (ds : List Char),
      List.dropWhile p l = d :: ds → p d = false := by
  intro l
  induction l with
  | nil => intro d ds h; cases h
  | cons a l' ih =>
    intro d ds h
    rw [List.dropWhile_cons] at h
    by_cases hp : p a = true
    · rw [if_pos hp] at h
      exact ih d ds h
    · rw [if_neg hp] at h
      cases h
      cases hx : p a
      · rfl
      · exact absurd hx hp

theorem wordChunks_props : ∀ N, ∀ l : List Char, l.length ≤ N →
    ∀ ch ∈ wordChunks l, ch ≠ [] ∧ ∀ c ∈ ch, isWordChar c = true := by
  intro N
  induction N with
  | zero =>
    intro l hl ch hch
    rw [List.length_eq_zero.mp (Nat.le_zero.mp hl)] at hch
    rw [wordChunks_nil] at hch
    cases hch
  | succ N ih =>
    intro l hl ch hch
    cases l with
    | nil =>
      rw [wordChunks_nil] at hch
      cases hch
    | cons c cs =>
      rw [List.length_cons] at hl
      cases hw : isWordChar c
      · rw [wordChunks_cons_nonword hw] at hch
        exact ih cs (Nat.le_of_succ_le_succ hl) ch hch
      · rw [wordChunks_cons_word hw] at hch
        rcases List.mem_cons.mp hch with rfl | hch'
        · refine ⟨by simp, ?_⟩
          intro x hx
          rcases List.mem_cons.mp hx with rfl | hx'
          · exact hw
          · exact List.mem_takeWhile_imp hx'
        · exact ih _ (le_trans (length_dropWhile_le' _ _) (Nat.le_of_succ_le_succ hl))
            ch hch'

theorem wordChunks_chars : ∀ N, ∀ l : List Char, l.length ≤ N →
    ∀ ch ∈ wordChunks l, ∀ x ∈ ch, x ∈ l := by
  intro N
  induction N with
  | zero =>
    intro l hl ch hch
    rw [List.length_eq_zero.mp (Nat.le_zero.mp hl)] at hch
    rw [wordChunks_nil] at hch
    cases hch
  | succ N ih =>
    intro l hl ch hch x hx
    cases l with
    | nil =>
      rw [wordChunks_nil] at hch
      cases hch
    | cons c cs =>
      rw [List.length_cons] at hl
      cases hw : isWordChar c
      · rw [wordChunks_cons_nonword hw] at hch
        exact List.mem_cons_of_mem _ (ih cs (Nat.le_of_succ_le_succ hl) ch hch x hx)
      · rw [wordChunks_cons_word hw] at hch
        rcases List.mem_cons.mp hch with rfl | hch'
        · rcases List.mem_cons.mp hx with rfl | hx'
          · exact List.mem_cons_self _ _
          · exact List.mem_cons_of_mem _ ((List.takeWhile_sublist _).subset hx')
        · have := ih _ (le_trans (length_dropWhile_le' _ _) (Nat.le_of_succ_le_succ hl))
            ch hch' x hx
          exact List.mem_cons_of_mem _ ((List.dropWhile_sublist _).subset this)

theorem wordChunks_eq_nil_all_nonword : ∀ N, ∀ l : List Char, l.length ≤ N →
    wordChunks l = [] → ∀ c ∈ l, isWordChar c = false := by
  intro N
  induction N with
  | zero =>
    intro l hl _ c hc
    rw [List.length_eq_zero.mp (Nat.le_zero.mp hl)] at hc
    cases hc
  | succ N ih =>
    intro l hl hnil c hc
    cases l with
    | nil => cases hc
    | cons a cs =>
      rw [List.length_cons] at hl
      cases hw : isWordChar a
      · rw [wordChunks_cons_nonword hw] at hnil
        rcases List.mem_cons.mp hc with rfl | hc'
        · exact hw
        · exact ih cs (Nat.le_of_succ_le_succ hl) hnil c hc'
      · rw [wordChunks_cons_word hw] at hnil
        cases hnil

theorem collapseAux_true_space {c : Char} {cs : List Char}
    (h : isSpaceChar c = true) : collapseAux true (c :: cs) = collapseAux true cs := by
  simp [collapseAux, h]

theorem collapseAux_false_space {c : Char} {cs : List Char}
    (h : isSpaceChar c = true) :
    collapseAux false (c :: cs) = ' ' :: collapseAux true cs := by
  simp [collapseAux, h]

theorem collapseAux_nonspace {c : Char} {cs : List Char} (b : Bool)
    (h : isSpaceChar c = false) :
    collapseAux b (c :: cs) = c :: collapseAux false cs := by
  simp [collapseAux, h]

theorem collapseAux_run (r : List Char) (hr : ∀ c ∈ r, isSpaceChar c = false) :
    ∀ b u, collapseAux b (r ++ u) = r ++ collapseAux (b && r.isEmpty) u := by
  induction r with
  | nil => intro b u; simp
  | cons a r' ih =>
    intro b u
    rw [List.cons_append, collapseAux_nonspace b (hr a (List.mem_cons_self _ _)),
      ih (fun c hc => hr c (List.mem_cons_of_mem _ hc)) false u]
    simp

theorem collapseAux_true_allspace (u : List Char)
    (h : ∀ c ∈ u, isSpaceChar c = true) : collapseAux true u = [] := by
  induction u with
  | nil => rfl
  | cons a u' ih =>
    rw [collapseAux_true_space (h a (List.mem_cons_self _ _))]
    exact ih fun c hc => h c (List.mem_cons_of_mem _ hc)

theorem collapseAux_true_head_nonspace :
    ∀ (u : List Char) (d : Char) (X : List Char),
      collapseAux true u = d :: X → isSpaceChar d = false := by
  intro u
  induction u with
  | nil => intro d X h; cases h
  | cons a u' ih =>
    intro d X h
    cases hs : isSpaceChar a
    · rw [collapseAux_nonspace true hs] at h
      cases h
      exact hs
    · rw [collapseAux_true_space hs] at h
      exact ih d X h

theorem dropWhile_eq_self_of_head (v : List Char)
    (h : ∀ d X, v = d :: X → isSpaceChar d = false) :
    v.dropWhile isSpaceChar = v := by
  cases v with
  | nil => rfl
  | cons d X => rw [List.dropWhile_cons, if_neg (by simp [h d X rfl])]

theorem dropWhile_collapse_false (w : List Char) :
    (collapseAux false w).dropWhile isSpaceChar = collapseAux true w := by
  cases w with
  | nil => rfl
  | cons a w' =>
    cases hs : isSpaceChar a
    · rw [collapseAux_nonspace false hs, collapseAux_nonspace true hs,
        List.dropWhile_cons, if_neg (by simp [hs])]
    · rw [collapseAux_false_space hs, collapseAux_true_space hs,
        List.dropWhile_cons, if_pos (by decide)]
      exact dropWhile_eq_self_of_head _ fun d X hX =>
        collapseAux_true_head_nonspace w' d X hX

theorem dropTrailing_cons (c : Char) (cs : List Char) :
    dropTrailing (c :: cs) = match dropTrailing cs with
      | [] => if isSpaceChar c then [] else [c]
      | r => c :: r := rfl

theorem dropTrailing_append_nil (r v : List Char)
    (hr : ∀ c ∈ r, isSpaceChar c = false) (hv : dropTrailing v = []) :
    dropTrailing (r ++ v) = r := by
  induction r with
  | nil => exact hv
  | cons a r' ih =>
    rw [List.cons_append, dropTrailing_cons,
      ih fun c hc => hr c (List.mem_cons_of_mem _ hc)]
    cases r' with
    | nil => simp [hr a (List.mem_cons_self _ _)]
    | cons x xs => rfl

theorem dropTrailing_append_ne (r v : List Char) (hv : dropTrailing v ≠ []) :
    dropTrailing (r ++ v) = r ++ dropTrailing v := by
  induction r with
  | nil => rfl
  | cons a r' ih =>
    rw [List.cons_append, dropTrailing_cons, ih]
    cases h' : r' ++ dropTrailing v with
    | nil => exact absurd (List.append_eq_nil.mp h').2 hv
    | cons x xs => rw [List.cons_append, h']

theorem dropTrailing_allnonspace (r : List Char)
    (hr : ∀ c ∈ r, isSpaceChar c = false) : dropTrailing r = r := by
  have := dropTrailing_append_nil r [] hr rfl
  rwa [List.append_nil] at this

theorem punctToSpace_cons (c : Char) (cs : List Char) :
    punctToSpace (c :: cs) =
      (if !isWordChar c && !isSpaceChar c then ' ' else c) :: punctToSpace cs := rfl

theorem punct_run (r u : List Char) (hr : ∀ c ∈ r, isWordChar c = true) :
    punctToSpace (r ++ u) = r ++ punctToSpace u := by
  unfold punctToSpace
  rw [List.map_append]
  congr 1
  exact map_id_of_mem fun c hc => by simp [hr c hc]

theorem punct_space_of_nonword {c : Char} (h : isWordChar c = false) :
    isSpaceChar (if !isWordChar c && !isSpaceChar c then ' ' else c) = true := by
  cases hs : isSpaceChar c
  · simp only [h, hs, Bool.not_false, Bool.and_self, if_true]
    decide
  · simp [h, hs]

theorem punct_allspace (u : List Char) (h : ∀ c ∈ u, isWordChar c = false) :
    ∀ c ∈ punctToSpace u, isSpaceChar c = true := by
  intro c hc
  unfold punctToSpace at hc
  rcases List.mem_map.mp hc with ⟨c₀, h₀, rfl⟩
  exact punct_space_of_nonword (h c₀ h₀)

/-- The whitespace stages of `_normalize` produce exactly the
single-space join of the maximal word runs (flag-true collapse form). -/
theorem stripCollapse_join : ∀ N, ∀ u : List Char, u.length ≤ N →
    dropTrailing (collapseAux true (punctToSpace u)) = joinSp (wordChunks u) := by
  intro N
  induction N with
  | zero =>
    intro u hu
    rw [List.length_eq_zero.mp (Nat.le_zero.mp hu), wordChunks_nil]
    rfl
  | succ N ih =>
    intro u hu
    cases u with
    | nil =>
      rw [wordChunks_nil]
      rfl
    | cons d ds =>
      rw [List.length_cons] at hu
      cases hw : isWordChar d
      · rw [wordChunks_cons_nonword hw, punctToSpace_cons,
          collapseAux_true_space (punct_space_of_nonword hw)]
        exact ih ds (Nat.le_of_succ_le_succ hu)
      · have hds : ds.takeWhile isWordChar ++ ds.dropWhile isWordChar = ds :=
          List.takeWhile_append_dropWhile _ _
        have hrall : ∀ c ∈ d :: ds.takeWhile isWordChar, isWordChar c = true := by
          intro c hc
          rcases List.mem_cons.mp hc with rfl | hc'
          · exact hw
          · exact List.mem_takeWhile_imp hc'
        have hrnospace : ∀ c ∈ d :: ds.takeWhile isWordChar, isSpaceChar c = false :=
          fun c hc => isSpaceChar_eq_false_of_word c (hrall c hc)
        rw [wordChunks_cons_word hw]
        have hsplit : d :: ds = (d :: ds.takeWhile isWordChar) ++ ds.dropWhile isWordChar := by
          rw [List.cons_append, hds]
        rw [hsplit, punct_run _ _ hrall, collapseAux_run _ hrnospace true _]
        simp only [List.isEmpty_cons, Bool.and_false]
        cases hcs : ds.dropWhile isWordChar with
        | nil =>
          rw [show punctToSpace [] = [] from rfl,
            show collapseAux false [] = [] from rfl, List.append_nil,
            dropTrailing_allnonspace _ hrnospace, wordChunks_nil]
          rfl
        | cons e es =>
          have hew : isWordChar e = false := head_dropWhile_false _ ds e es hcs
          have hlen : es.length ≤ N := by
            have h1 := congrArg List.length hds
            rw [hcs] at h1
            simp only [List.length_append, List.length_cons] at h1
            omega
          rw [punctToSpace_cons,
            collapseAux_false_space (punct_space_of_nonword hew),
            wordChunks_cons_nonword hew]
          by_cases hches : wordChunks es = []
          · have hnw : ∀ c ∈ es, isWordChar c = false :=
              wordChunks_eq_nil_all_nonword es.length es (le_refl _) hches
            rw [collapseAux_true_allspace _ (punct_allspace es hnw), hches,
              dropTrailing_append_nil _ _ hrnospace (by rfl)]
            rfl
          · have hprops := wordChunks_props es.length es (le_refl _)
            have hne : joinSp (wordChunks es) ≠ [] :=
              joinSp_ne_nil hches fun w hw' => (hprops w hw').1
            have hdt := ih es hlen
            have hdtne : dropTrailing (' ' :: collapseAux true (punctToSpace es)) =
                ' ' :: joinSp (wordChunks es) := by
              rw [dropTrailing_cons, hdt]
              cases h' : joinSp (wordChunks es) with
              | nil => exact absurd h' hne
              | cons x xs => rfl
            rw [dropTrailing_append_ne _ _ (by rw [hdtne]; simp), hdtne,
              joinSp_cons hches]

/-- The punctuation, whitespace-collapse and strip stages of `_normalize`
rewrite any string into the single-space join of its maximal word runs. -/
theorem joinForm (u : List Char) :
    pyStripL (collapseAux false (punctToSpace u)) = joinSp (wordChunks u) := by
  unfold pyStripL
  rw [dropWhile_collapse_false]
  exact stripCollapse_join u.length u (le_refl _)

theorem takeWhile_all (p : Char → Bool) (w : List Char)
    (h : ∀ c ∈ w, p c = true) : w.takeWhile p = w := by
  have := takeWhile_all_append p w [] h
  simpa using this

theorem dropWhile_all (p : Char → Bool) (w : List Char)
    (h : ∀ c ∈ w, p c = true) : w.dropWhile p = [] := by
  have := dropWhile_all_append p w [] h
  simpa using this

/-- The chunks of a single-space join of nonempty word-only chunks are
exactly those chunks. -/
theorem chunks_joinSp : ∀ ws : List (List Char),
    (∀ w ∈ ws, w ≠ [] ∧ ∀ c ∈ w, isWordChar c = true) →
    wordChunks (joinSp ws) = ws := by
  intro ws
  induction ws with
  | nil => intro _; rw [show joinSp [] = [] from rfl, wordChunks_nil]
  | cons w ws' ih =>
    intro hall
    obtain ⟨hne, hw⟩ := hall w (List.mem_cons_self _ _)
    cases ws' with
    | nil =>
      show wordChunks (joinSp [w]) = [w]
      rw [show joinSp [w] = w from rfl]
      cases w with
      | nil => exact absurd rfl hne
      | cons c w' =>
        rw [wordChunks_cons_word (hw c (List.mem_cons_self _ _)),
          takeWhile_all _ w' (fun x hx => hw x (List.mem_cons_of_mem _ hx)),
          dropWhile_all _ w' (fun x hx => hw x (List.mem_cons_of_mem _ hx)),
          wordChunks_nil]
    | cons w2 ws2 =>
      rw [joinSp_cons (by simp)]
      cases w with
      | nil => exact absurd rfl hne
      | cons c w' =>
        rw [List.cons_append,
          wordChunks_cons_word (hw c (List.mem_cons_self _ _)),
          takeWhile_all_append _ w' _ (fun x hx => hw x (List.mem_cons_of_mem _ hx)),
          List.takeWhile_cons, if_neg (by decide), List.append_nil,
          dropWhile_all_append _ w' _ (fun x hx => hw x (List.mem_cons_of_mem _ hx)),
          List.dropWhile_cons, if_neg (by decide),
          wordChunks_cons_nonword (by decide),
          ih fun x hx => hall x (List.mem_cons_of_mem _ hx)]

theorem plainTokens_two_le (t : List Char) (h : t ∈ plainTokens) : 2 ≤ t.length := by
  simp only [plainTokens, List.mem_cons, List.not_mem_nil, or_false] at h
  rcases h with rfl | rfl | rfl | rfl | rfl | rfl | rfl | rfl <;> decide

theorem getLastD_word (tw : List Char) :
    ∀ c, isWordChar c = true → (∀ x ∈ tw, isWordChar x = true) →
      isWordChar (tw.getLastD c) = true := by
  induction tw with
  | nil => intro c hc _; exact hc
  | cons a tw' ih =>
    intro c _ hall
    rw [List.getLastD_cons]
    exact ih a (hall a (List.mem_cons_self _ _))
      fun x hx => hall x (List.mem_cons_of_mem _ hx)

theorem subAux_zero (prev : Option Char) (l : List Char) : subAux 0 prev l = l := rfl

theorem subAux_nil (n : Nat) (prev : Option Char) : subAux n prev [] = [] := by
  cases n <;> rfl

theorem subAux_cons (n : Nat) (prev : Option Char) (c : Char) (cs : List Char) :
    subAux (n + 1) prev (c :: cs) =
      if prevNonWord prev then
        match tryAlts (c :: cs) with
        | some (t, rest) => subAux n (some (t.getLastD ' ')) rest
        | none => c :: subAux n (some c) cs
      else c :: subAux n (some c) cs := rfl

/-- Scanning inside a word run keeps every character: no alternative can
match at a position whose previous character is a word character. -/
theorem subAux_run : ∀ (rr : List Char) (n : Nat) (w : Char) (cs'' : List Char),
    isWordChar w = true → (∀ x ∈ rr, isWordChar x = true) →
    subAux n (some w) (rr ++ cs'') =
      rr ++ subAux (n - rr.length) (some (rr.getLastD w)) cs'' := by
  intro rr
  induction rr with
  | nil => intro n w cs'' _ _; simp [List.getLastD]
  | cons a rr' ih =>
    intro n w cs'' hw hall
    cases n with
    | zero => simp [subAux_zero]
    | succ m =>
      rw [List.cons_append, subAux_cons, if_neg (by simp [prevNonWord, hw]),
        ih m a cs'' (hall a (List.mem_cons_self _ _))
          (fun x hx => hall x (List.mem_cons_of_mem _ hx)),
        List.getLastD_cons, List.cons_append, List.length_cons,
        Nat.succ_sub_succ]

theorem subAux_chars : ∀ (n : Nat) (prev : Option Char) (l : List Char),
    ∀ x ∈ subAux n prev l, x ∈ l := by
  intro n
  induction n with
  | zero => intro prev l x hx; exact hx
  | succ m ih =>
    intro prev l x hx
    cases l with
    | nil => rw [subAux_nil] at hx; cases hx
    | cons c cs =>
      rw [subAux_cons] at hx
      by_cases hp : prevNonWord prev = true
      · rw [if_pos hp] at hx
        cases hm : tryAlts (c :: cs) with
        | some p =>
          obtain ⟨t, rest⟩ := p
          rw [hm] at hx
          obtain ⟨hsplit, -⟩ := tryAlts_some_char _ _ _ hm
          rw [hsplit]
          exact List.mem_append_right _ (ih _ rest x hx)
        | none =>
          rw [hm] at hx
          rcases List.mem_cons.mp hx with rfl | hx'
          · exact List.mem_cons_self _ _
          · exact List.mem_cons_of_mem _ (ih _ cs x hx')
      · rw [if_neg hp] at hx
        rcases List.mem_cons.mp hx with rfl | hx'
        · exact List.mem_cons_self _ _
        · exact List.mem_cons_of_mem _ (ih _ cs x hx')

/-- Key invariant of the suffix scan: no maximal word run of its output
is a plain suffix token (any such run in the input would have been
matched and removed, and removals never create new runs). -/
theorem subAux_chunks_no_token : ∀ (N : Nat) (l : List Char), l.length ≤ N →
    ∀ (n : Nat) (prev : Option Char), l.length ≤ n → prevNonWord prev = true →
    ∀ ch ∈ wordChunks (subAux n prev l), ch ∉ plainTokens := by
  intro N
  induction N with
  | zero =>
    intro l hlN n prev _ _ ch hch
    rw [List.length_eq_zero.mp (Nat.le_zero.mp hlN)] at hch
    rw [subAux_nil, wordChunks_nil] at hch
    cases hch
  | succ N ihN =>
    intro l hlN n prev hln hprev ch hch
    cases l with
    | nil =>
      rw [subAux_nil, wordChunks_nil] at hch
      cases hch
    | cons c cs =>
      cases n with
      | zero => simp at hln
      | succ m =>
        rw [subAux_cons, if_pos hprev] at hch
        rw [List.length_cons] at hlN hln
        cases hm : tryAlts (c :: cs) with
        | some p =>
          obtain ⟨t, rest⟩ := p
          rw [hm] at hch
          dsimp only at hch
          obtain ⟨hsplit, hcase⟩ := tryAlts_some_char _ _ _ hm
          have hlsp := congrArg List.length hsplit
          rw [List.length_cons, List.length_append] at hlsp
          rcases hcase with ⟨htok, hba, hlastw⟩ | ⟨hllc, hba, hlast⟩
          · have ht2 := plainTokens_two_le t htok
            cases rest with
            | nil =>
              rw [subAux_nil, wordChunks_nil] at hch
              cases hch
            | cons e es =>
              have hew : isWordChar e = false := by
                simpa [bAfterWord] using hba
              rw [List.length_cons] at hlsp
              cases m with
              | zero => omega
              | succ m2 =>
                rw [subAux_cons,
                  if_neg (by simp only [prevNonWord]; rw [hlastw]; simp)] at hch
                rw [wordChunks_cons_nonword hew] at hch
                exact ihN es (by omega) m2 (some e) (by omega)
                  (by simp [prevNonWord, hew]) ch hch
          · rw [hlast] at hch
            exact ihN rest (by rw [hllc] at hlsp; simp at hlsp; omega)
              m (some '.') (by rw [hllc] at hlsp; simp at hlsp; omega)
              (by decide) ch hch
        | none =>
          rw [hm] at hch
          cases hcw : isWordChar c with
          | false =>
            rw [wordChunks_cons_nonword hcw] at hch
            exact ihN cs (by omega) m (some c) (by omega)
              (by simp [prevNonWord, hcw]) ch hch
          | true =>
            have hds := List.takeWhile_append_dropWhile isWordChar cs
            have htwall : ∀ x ∈ cs.takeWhile isWordChar, isWordChar x = true :=
              fun x hx => List.mem_takeWhile_imp hx
            have hlsplit := congrArg List.length hds
            rw [List.length_append] at hlsplit
            rw [show subAux m (some c) cs =
                subAux m (some c) (cs.takeWhile isWordChar ++ cs.dropWhile isWordChar)
              from by rw [hds]] at hch
            rw [subAux_run _ m c _ hcw htwall] at hch
            cases hdw : cs.dropWhile isWordChar with
            | nil =>
              rw [hdw, subAux_nil, List.append_nil] at hch
              rw [wordChunks_cons_word hcw,
                takeWhile_all _ _ htwall, dropWhile_all _ _ htwall,
                wordChunks_nil] at hch
              rcases List.mem_cons.mp hch with rfl | hch'
              · intro htok
                apply tryAlts_token_matches _ [] htok (by rfl)
                rw [List.append_nil]
                have htweq : cs.takeWhile isWordChar = cs := by
                  conv_rhs => rw [← hds, hdw]
                  rw [List.append_nil]
                rw [htweq]
                exact hm
              · cases hch'
            | cons e es =>
              have hew : isWordChar e = false := head_dropWhile_false _ cs e es hdw
              have hwlast : isWordChar ((cs.takeWhile isWordChar).getLastD c) = true :=
                getLastD_word _ c hcw htwall
              rw [hdw, List.length_cons] at hlsplit
              cases hfm : m - (cs.takeWhile isWordChar).length with
              | zero => omega
              | succ m2 =>
                rw [hdw, hfm, subAux_cons,
                  if_neg (by simp only [prevNonWord]; rw [hwlast]; simp)] at hch
                rw [wordChunks_cons_word hcw,
                  takeWhile_all_append _ _ _ htwall,
                  List.takeWhile_cons, if_neg (by simp [hew]), List.append_nil,
                  dropWhile_all_append _ _ _ htwall,
                  List.dropWhile_cons, if_neg (by simp [hew]),
                  wordChunks_cons_nonword hew] at hch
                rcases List.mem_cons.mp hch with rfl | hch'
                · intro htok
                  apply tryAlts_token_matches _ (e :: es) htok (by simp [bAfterWord, hew])
                  rw [show (c :: cs.takeWhile isWordChar) ++ e :: es =
                      c :: cs from by rw [List.cons_append, ← hdw, hds]]
                  exact hm
                · exact ihN es (by omega) m2 (some e) (by omega)
                    (by simp [prevNonWord, hew]) ch hch'

/-- The suffix scan leaves a string unchanged when no maximal word run is
a plain token and the string contains no dot (so `l.l.c.` cannot occur). -/
theorem subAux_id : ∀ (N : Nat) (l : List Char), l.length ≤ N →
    ∀ (n : Nat) (prev : Option Char), prevNonWord prev = true →
    (∀ ch ∈ wordChunks l, ch ∉ plainTokens) → ('.' ∉ l) →
    subAux n prev l = l := by
  intro N
  induction N with
  | zero =>
    intro l hlN n prev _ _ _
    rw [List.length_eq_zero.mp (Nat.le_zero.mp hlN), subAux_nil]
  | succ N ihN =>
    intro l hlN n prev hprev hch hdot
    cases l with
    | nil => rw [subAux_nil]
    | cons c cs =>
      rw [List.length_cons] at hlN
      cases n with
      | zero => rw [subAux_zero]
      | succ m =>
        have hnone : tryAlts (c :: cs) = none := by
          cases hm : tryAlts (c :: cs) with
          | none => rfl
          | some p =>
            exfalso
            obtain ⟨t, rest⟩ := p
            obtain ⟨hsplit, hcase⟩ := tryAlts_some_char _ _ _ hm
            rcases hcase with ⟨htok, hba, -⟩ | ⟨hllc, -, -⟩
            · obtain ⟨hne, hwall⟩ := plainTokens_word t htok
              cases t with
              | nil => exact hne rfl
              | cons t0 t' =>
                have hct : c = t0 ∧ cs = t' ++ rest := by
                  rw [List.cons_append] at hsplit
                  exact ⟨(List.cons.injEq .. |>.mp hsplit).1,
                    (List.cons.injEq .. |>.mp hsplit).2⟩
                have hcw : isWordChar c = true := by
                  rw [hct.1]
                  exact hwall t0 (List.mem_cons_self _ _)
                have hchunk : (c :: cs.takeWhile isWordChar) ∈ wordChunks (c :: cs) := by
                  rw [wordChunks_cons_word hcw]
                  exact List.mem_cons_self _ _
                apply hch _ hchunk
                have htw : cs.takeWhile isWordChar = t' := by
                  rw [hct.2, takeWhile_all_append _ t' rest
                    (fun x hx => hwall x (List.mem_cons_of_mem _ hx))]
                  cases rest with
                  | nil => simp
                  | cons e es =>
                    have hew : isWordChar e = false := by
                      simpa [bAfterWord] using hba
                    rw [List.takeWhile_cons, if_neg (by simp [hew]),
                      List.append_nil]
                rw [htw, hct.1]
                exact htok
            · apply hdot
              rw [hsplit, hllc]
              exact List.mem_append_left _ (by decide)
        rw [subAux_cons, if_pos hprev, hnone]
        dsimp only
        cases hcw : isWordChar c with
        | false =>
          rw [wordChunks_cons_nonword hcw] at hch
          rw [ihN cs (by omega) m (some c) (by simp [prevNonWord, hcw]) hch
            (fun hm' => hdot (List.mem_cons_of_mem _ hm'))]
        | true =>
          have hds := List.takeWhile_append_dropWhile isWordChar cs
          have htwall : ∀ x ∈ cs.takeWhile isWordChar, isWordChar x = true :=
            fun x hx => List.mem_takeWhile_imp hx
          rw [show subAux m (some c) cs =
              subAux m (some c) (cs.takeWhile isWordChar ++ cs.dropWhile isWordChar)
            from by rw [hds]]
          rw [subAux_run _ m c _ hcw htwall]
          cases hdw : cs.dropWhile isWordChar with
          | nil =>
            rw [subAux_nil, List.append_nil]
            have htweq : cs.takeWhile isWordChar = cs := by
              conv_rhs => rw [← hds, hdw]
              rw [List.append_nil]
            rw [htweq]
          | cons e es =>
            have hew : isWordChar e = false := head_dropWhile_false _ cs e es hdw
            have hwlast : isWordChar ((cs.takeWhile isWordChar).getLastD c) = true :=
              getLastD_word _ c hcw htwall
            have hlsplit := congrArg List.length hds
            rw [List.length_append, hdw, List.length_cons] at hlsplit
            cases hfm : m - (cs.takeWhile isWordChar).length with
            | zero =>
              rw [subAux_zero, ← hdw, hds]
            | succ m2 =>
              rw [subAux_cons,
                if_neg (by simp only [prevNonWord]; rw [hwlast]; simp)]
              have hches : ∀ ch ∈ wordChunks es, ch ∉ plainTokens := by
                intro ch' hch'
                apply hch
                rw [wordChunks_cons_word hcw,
                  show cs = cs.takeWhile isWordChar ++ e :: es from by rw [← hdw, hds],
                  dropWhile_all_append _ _ _ htwall,
                  List.dropWhile_cons, if_neg (by simp [hew]),
                  wordChunks_cons_nonword hew]
                exact List.mem_cons_of_mem _ hch'
              have hdotes : '.' ∉ es := by
                intro hm'
                apply hdot
                refine List.mem_cons_of_mem _ ?_
                rw [show cs = cs.takeWhile isWordChar ++ e :: es from by rw [← hdw, hds]]
                exact List.mem_append_right _ (List.mem_cons_of_mem _ hm')
              rw [ihN es (by omega) m2 (some e) (by simp [prevNonWord, hew])
                hches hdotes]
              rw [← hdw, hds]

theorem joinSp_chars : ∀ ws : List (List Char), ∀ c ∈ joinSp ws,
    c = ' ' ∨ ∃ w ∈ ws, c ∈ w := by
  intro ws
  induction ws with
  | nil => intro c hc; cases hc
  | cons w ws' ih =>
    cases ws' with
    | nil =>
      intro c hc
      exact Or.inr ⟨w, List.mem_cons_self _ _, hc⟩
    | cons w2 ws2 =>
      intro c hc
      rw [joinSp_cons (by simp)] at hc
      rcases List.mem_append.mp hc with h | h
      · exact Or.inr ⟨w, List.mem_cons_self _ _, h⟩
      · rcases List.mem_cons.mp h with rfl | h'
        · exact Or.inl rfl
        · rcases ih c h' with h'' | ⟨w', hw', hc'⟩
          · exact Or.inl h''
          · exact Or.inr ⟨w', List.mem_cons_of_mem _ hw', hc'⟩

/-- Claim C7: `_normalize` is a pure function (a Lean function of its
argument); it is idempotent — normalizing an already-normalized string
changes nothing — and both `None` and the empty string normalize to the
empty string. -/
theorem normalize_idempotent :
    (∀ x : Option String, normalize (some (normalize x)) = normalize x) ∧
    normalize none = "" ∧ normalize (some "") = "" := by
  refine ⟨?_, rfl, rfl⟩
  intro x
  have hydata : (normalize x).data =
      joinSp (wordChunks (subSuffix (pyLower (x.getD "").data))) := by
    show pyStripL (collapseAux false (punctToSpace
      (subSuffix (pyLower (x.getD "").data)))) = _
    exact joinForm _
  have hprops : ∀ w ∈ wordChunks (subSuffix (pyLower (x.getD "").data)),
      w ≠ [] ∧ ∀ c ∈ w, isWordChar c = true :=
    wordChunks_props (subSuffix (pyLower (x.getD "").data)).length _ (le_refl _)
  have hnotok : ∀ ch ∈ wordChunks (subSuffix (pyLower (x.getD "").data)),
      ch ∉ plainTokens :=
    subAux_chunks_no_token (pyLower (x.getD "").data).length _ (le_refl _)
      (pyLower (x.getD "").data).length none (le_refl _) rfl
  have hchunks_y : wordChunks ((normalize x).data) =
      wordChunks (subSuffix (pyLower (x.getD "").data)) := by
    rw [hydata]
    exact chunks_joinSp _ hprops
  have hstable : ∀ c ∈ (normalize x).data, lowerChar c = c := by
    intro c hc
    rw [hydata] at hc
    rcases joinSp_chars _ c hc with rfl | ⟨w, hw, hcw⟩
    · decide
    · have hcz := wordChunks_chars (subSuffix (pyLower (x.getD "").data)).length _
        (le_refl _) w hw c hcw
      have hcl : c ∈ pyLower (x.getD "").data :=
        subAux_chars (pyLower (x.getD "").data).length none _ c hcz
      rcases List.mem_map.mp hcl with ⟨c₀, _, rfl⟩
      exact lowerChar_idem c₀
  have hwordsp : ∀ c ∈ (normalize x).data, c = ' ' ∨ isWordChar c = true := by
    intro c hc
    rw [hydata] at hc
    rcases joinSp_chars _ c hc with rfl | ⟨w, hw, hcw⟩
    · exact Or.inl rfl
    · exact Or.inr ((hprops w hw).2 c hcw)
  have hdot : '.' ∉ (normalize x).data := by
    intro h
    rcases hwordsp '.' h with h' | h'
    · exact absurd h' (by decide)
    · exact absurd h' (by decide)
  have hlower : pyLower ((normalize x).data) = (normalize x).data :=
    map_id_of_mem hstable
  have hsub : subSuffix ((normalize x).data) = (normalize x).data :=
    subAux_id ((normalize x).data).length _ (le_refl _) _ none rfl
      (by rw [hchunks_y]; exact hnotok) hdot
  show String.mk (pyStripL (collapseAux false (punctToSpace
    (subSuffix (pyLower ((normalize x).data)))))) = normalize x
  rw [hlower, hsub,
    show pyStripL (collapseAux false (punctToSpace ((normalize x).data))) =
      joinSp (wordChunks ((normalize x).data)) from joinForm _,
    hchunks_y, ← hydata]

end CFMatch
